import Mathlib

/-!
gofrac: Game of Life with mutation (`life.go`) and Mandelbrot viewer (`main.go`).

A shallow embedding of the two programs of the repository and theorems about them.

Modelling conventions.

* Go `int` values are `Int`, and the arithmetic of the code on them is written without
  reduction; `int` is taken to be 64 bits wide, as `uint` is below.  Under the grid
  invariant `len(area) = width*height` every product and index formed by the code is bounded
  by a slice length, so 64-bit wrap-around does not occur.  `NewWorld` and the fractal
  `Update` form `width*height` before any slice exists: what is proved of the grid they
  build is proved for `width*height < 2^63`, where that product and every index
  `y*width+x` with `0 ≤ x < width`, `0 ≤ y < height` are the values the code computes; for
  a larger product the code wraps and these definitions do not describe it.
* A slice is a `List`; a read or write outside `0 ≤ i < len` is a run-time panic, modelled
  by `Except.error`.
* `byte`/`uint8` values are naturals below 256, with the reduction `% 256` written where the
  arithmetic of the code can exceed a byte.
* The process-wide random source is a stream `draws : Nat → Nat` together with the number
  `pos` of values already consumed; `rand.Intn(n)` consumes one value and reduces it modulo
  `n`, so that each stream denotes one sequence of in-range results and every such sequence
  is denoted by some stream.
* `float64`/`complex128` arithmetic is modelled by exact arithmetic: rationals for the
  complex plane, the real square root for the palette.  A conversion `uint(f)` of a value
  that does not fit 64 bits is implementation-dependent in Go and is a parameter `ovf`.
* Calls that only produce output (`log.Println`, `log.Printf`) are left out.
-/

namespace Gofrac

/-! ## Run-time panics and counted loops -/

/-- The run-time panics the code can raise. -/
inductive Fault where
  | indexOutOfRange
  | negativeLen
  | intnArgument
  deriving DecidableEq, Repr

deriving instance DecidableEq for Except

/-- Slice read `a[i]` with an `int` index. -/
def index {α : Type} (a : List α) (i : Int) : Except Fault α :=
  if i < 0 then .error .indexOutOfRange
  else match a[i.toNat]? with
    | some v => .ok v
    | none => .error .indexOutOfRange

/-- Slice write `a[i] = v` with an `int` index. -/
def store {α : Type} (a : List α) (i : Int) (v : α) : Except Fault (List α) :=
  if i < 0 then .error .indexOutOfRange
  else if i.toNat < a.length then .ok (a.set i.toNat v)
  else .error .indexOutOfRange

/-- Allocation `make([]T, n)` of a zero-filled slice. -/
def make {α : Type} (zero : α) (n : Int) : Except Fault (List α) :=
  if n < 0 then .error .negativeLen else .ok (List.replicate n.toNat zero)

/-- The loop `for i := 0; i < n; i++ { body }` for a body that does not assign `i`. -/
def forRange {ε σ : Type} (n : Int) (body : Int → σ → Except ε σ) (s : σ) : Except ε σ :=
  (List.range n.toNat).foldlM (fun s (i : Nat) => body (i : Int) s) s

/-- The call `rand.Intn(n)`: panics for `n ≤ 0`, otherwise returns a value of `[0, n)` and
advances the random source by one draw. -/
def Intn (draws : Nat → Nat) (n : Int) (pos : Nat) : Except Fault (Int × Nat) :=
  if n ≤ 0 then .error .intnArgument else .ok ((draws pos : Int) % n, pos + 1)

/-! ## life.go -/

namespace Life

/-- World represents the game state. -/
structure World where
  area : List Bool
  width : Int
  height : Int
  deriving DecidableEq, Repr

/-- One iteration of the inner loop of `neighbourCount`, at offset `(i, j)`. -/
def neighbourStep (a : List Bool) (width height x y j i : Int) (c : Int) : Except Fault Int :=
  if i = 0 ∧ j = 0 then .ok c
  else
    let x2 := x + i
    let y2 := y + j
    if x2 < 0 ∨ y2 < 0 ∨ width ≤ x2 ∨ height ≤ y2 then .ok c
    else do
      let v ← index a (y2 * width + x2)
      if v then .ok (c + 1) else .ok c

/-- neighbourCount calculates the Moore neighborhood of (x, y). -/
def neighbourCount (a : List Bool) (width height x y : Int) : Except Fault Int :=
  [-1, 0, 1].foldlM
    (fun c j => [-1, 0, 1].foldlM (fun c i => neighbourStep a width height x y j i c) c) 0

/-- The eight offsets of the Moore neighbourhood, `(i, j) ≠ (0, 0)`. -/
def mooreOffsets : List (Int × Int) :=
  [(-1, -1), (0, -1), (1, -1), (-1, 0), (1, 0), (-1, 1), (0, 1), (1, 1)]

/-- The cell `(x, y)` lies on the grid and is alive. -/
def liveAt (a : List Bool) (width height x y : Int) : Bool :=
  decide (0 ≤ x ∧ x < width ∧ 0 ≤ y ∧ y < height) && (a[(y * width + x).toNat]? == some true)

/-- The neighbour count of the specification: the number of live cells among the eight
positions `(x+i, y+j)` that lie on the grid. -/
def mooreCount (a : List Bool) (width height x y : Int) : Nat :=
  mooreOffsets.countP (fun o => liveAt a width height (x + o.1) (y + o.2))

/-- mutation flips the state when the draw from `[0, 999999)` is 42. -/
def mutation (draws : Nat → Nat) (state : Bool) (pos : Nat) : Except Fault (Bool × Nat) := do
  let (r, pos) ← Intn draws 999999 pos
  if r = 42 then .ok (!state, pos) else .ok (state, pos)

/-- The body of the inner loop of `World.Update` for the cell `(x, y)`; the state is the
slice `next` and the position of the random source.  The switch has no default case, so a
cell that matches no case keeps the value `next` holds. -/
def updateCell (draws : Nat → Nat) (w : World) (width height y x : Int)
    (st : List Bool × Nat) : Except Fault (List Bool × Nat) := do
  let pop ← neighbourCount w.area width height x y
  let next ←
    if pop < 2 then store st.1 (y * width + x) false
    else do
      let alive ← if pop = 2 ∨ pop = 3 then index w.area (y * width + x) else .ok false
      if alive then store st.1 (y * width + x) true
      else if pop > 3 then store st.1 (y * width + x) false
      else if pop = 3 then store st.1 (y * width + x) true
      else .ok st.1
  let cur ← index next (y * width + x)
  let (v, pos) ← mutation draws cur st.2
  let next ← store next (y * width + x) v
  .ok (next, pos)

/-- Update game state by one tick. -/
def World.Update (draws : Nat → Nat) (w : World) (pos : Nat) : Except Fault (World × Nat) := do
  let width := w.width
  let height := w.height
  let next ← make false (width * height)
  let st ← forRange height
    (fun y st => forRange width (fun x st => updateCell draws w width height y x st) st)
    (next, pos)
  .ok ({ w with area := st.1 }, st.2)

/-- The Game-of-Life value of the specification for a cell with `n` live neighbours. -/
def lifeRule (alive : Bool) (n : Int) : Bool := n == 3 || (alive && n == 2)

/-- The mutation of the specification: flip `r` exactly when the draw from `[0, 999999)`
that the raw value `raw` of the random source denotes is 42. -/
def flipOn42 (raw : Nat) (r : Bool) : Bool := if raw % 999999 = 42 then !r else r

/-- The value that `World.Update` stores in the cell with linear index `j`. -/
def nextCell (draws : Nat → Nat) (w : World) (pos j : Nat) : Bool :=
  flipOn42 (draws (pos + j))
    (lifeRule (w.area[j]?.getD false)
      (mooreCount w.area w.width w.height ((j % w.width.toNat : Nat) : Int)
        ((j / w.width.toNat : Nat) : Int)))

/-- The body of the first inner loop of `init`: a random cell is marked live. -/
def pickCell (draws : Nat → Nat) (width height : Int) (st : List Bool × Nat) :
    Except Fault (List Bool × Nat) := do
  let (x, pos) ← Intn draws width st.2
  let (y, pos) ← Intn draws height pos
  let area ← store st.1 (y * width + x) true
  .ok (area, pos)

/-- The linear index of the cell that the `i`-th pick of a round started at position `pos`
of the random source marks: `x` is the draw at `pos + 2*i`, `y` the draw at `pos + 2*i + 1`. -/
def pickIndex (draws : Nat → Nat) (width height : Int) (pos i : Nat) : Nat :=
  ((draws (pos + 2 * i + 1) : Int) % height * width + (draws (pos + 2 * i) : Int) % width).toNat

/-- The grid after the first `n` picks of a round started at position `pos`. -/
def applyPicks (draws : Nat → Nat) (width height : Int) (pos : Nat) : Nat → List Bool → List Bool
  | 0, area => area
  | n + 1, area =>
    (applyPicks draws width height pos n area).set (pickIndex draws width height pos n) true

/-- The body of the second inner loop of `init`: a live cell decrements `maxLiveCells`. -/
def countCell (area : List Bool) (i : Int) (maxLiveCells : Int) : Except Fault Int := do
  let v ← index area i
  if v then .ok (maxLiveCells - 1) else .ok maxLiveCells

/-- One round of the outer loop of `init`: `maxLiveCells` random picks, then the recount.
Returns the world, the new value of `maxLiveCells` and the position of the random source. -/
def World.initRound (draws : Nat → Nat) (w : World) (maxLiveCells : Int) (pos : Nat) :
    Except Fault (World × Int × Nat) := do
  let st ← forRange maxLiveCells (fun _ st => pickCell draws w.width w.height st) (w.area, pos)
  let m ← forRange st.1.length (fun i m => countCell st.1 i m) maxLiveCells
  .ok ({ w with area := st.1 }, m, st.2)

/-- How a run of `init` ends when at most a given number of rounds is allowed. -/
inductive InitResult where
  | finished (w : World) (pos : Nat) (rounds : Nat)
  | panicked (f : Fault)
  | running
  deriving DecidableEq, Repr

/-- init inits world with a random state.  The first argument bounds the number of rounds of
the outer loop `for maxLiveCells > 0`; `rounds` counts the rounds already made. -/
def World.init (draws : Nat → Nat) : Nat → World → Int → Nat → Nat → InitResult
  | 0, w, maxLiveCells, pos, rounds =>
    if maxLiveCells > 0 then .running else .finished w pos rounds
  | fuel + 1, w, maxLiveCells, pos, rounds =>
    if maxLiveCells > 0 then
      match w.initRound draws maxLiveCells pos with
      | .error f => .panicked f
      | .ok (w', m, pos') => World.init draws fuel w' m pos' (rounds + 1)
    else .finished w pos rounds

/-- NewWorld creates a new world.  The product `width*height` is exact, which is the value
the code computes when it lies in `[-2^63, 2^63)`. -/
def NewWorld (draws : Nat → Nat) (fuel : Nat) (width height maxInitLiveCells : Int)
    (pos : Nat) : InitResult :=
  match make false (width * height) with
  | .error f => .panicked f
  | .ok area => World.init draws fuel ⟨area, width, height⟩ maxInitLiveCells pos 0

/-- The number of live cells of a grid. -/
def liveCount (area : List Bool) : Nat := area.count true

/-- The 3x3 grid whose only live cell is the centre. -/
def centreOnly : List Bool :=
  [false, false, false, false, true, false, false, false, false]

end Life

/-! ## Pixel buffers -/

/-- Write `pix[i] = v` into a caller-owned pixel buffer.  A panic carries the contents the
buffer has at that moment, which is what the caller is left with. -/
def pixStore (pix : List Nat) (i : Int) (v : Nat) : Except (List Nat) (List Nat) :=
  match store pix i v with
  | .ok p => .ok p
  | .error _ => .error pix

/-- Read `pix[i]` from a caller-owned pixel buffer. -/
def pixLoad (pix : List Nat) (i : Int) : Except (List Nat) Nat :=
  match index pix i with
  | .ok v => .ok v
  | .error _ => .error pix

namespace Life

/-- The body of the loop of `World.Draw` for cell `i` with value `v`. -/
def drawCell (v : Bool) (i : Int) (pix : List Nat) : Except (List Nat) (List Nat) :=
  if v then do
    let pix ← pixStore pix (4 * i) 0xff
    let pix ← pixStore pix (4 * i + 1) 0xff
    let pix ← pixStore pix (4 * i + 2) 0xff
    let a ← pixLoad pix (4 * i + 3)
    pixStore pix (4 * i + 3) (((a <<< 1) % 256 + 1) % 256)
  else do
    let pix ← pixStore pix (4 * i) 0
    let pix ← pixStore pix (4 * i + 1) 0
    let pix ← pixStore pix (4 * i + 2) 0
    let a ← pixLoad pix (4 * i + 3)
    pixStore pix (4 * i + 3) (a >>> 1)

/-- Draw paints current game state.  The receiver is only read, so the result is the pixel
buffer alone; `for i, v := range w.area` reads `v = w.area[i]` for `i < len(w.area)`. -/
def World.Draw (w : World) (pix : List Nat) : Except (List Nat) (List Nat) :=
  forRange w.area.length
    (fun i pix =>
      match index w.area i with
      | .ok v => drawCell v i pix
      | .error _ => .error pix)
    pix

/-- The colour byte of the specification for a cell: `0xff` when alive, `0` when dead. -/
def colourByte (alive : Bool) : Nat := if alive then 0xff else 0

/-- The alpha accumulator of the specification: `(2*a + 1) mod 256` for a live cell and
`floor(a/2)` for a dead one, where `a` is the previous alpha byte. -/
def alphaStep (alive : Bool) (a : Nat) : Nat := if alive then (2 * a + 1) % 256 else a / 2

/-- The byte at index `j` of the buffer after `World.Draw` painted the cell `j / 4`. -/
def drawnByte (area : List Bool) (pix : List Nat) (j : Nat) : Nat :=
  if j % 4 = 3 then alphaStep (area.getD (j / 4) false) (pix.getD j 0)
  else colourByte (area.getD (j / 4) false)

end Life

/-! ## main.go -/

namespace Fractal

/-- The constant `maxIteration`. -/
def maxIteration : Nat := 30

/-- A `complex128` value, over exact rational arithmetic. -/
structure Complex128 where
  re : ℚ
  im : ℚ
  deriving DecidableEq

/-- Complex addition. -/
def Complex128.add (a b : Complex128) : Complex128 := ⟨a.re + b.re, a.im + b.im⟩

/-- Complex multiplication. -/
def Complex128.mul (a b : Complex128) : Complex128 :=
  ⟨a.re * b.re - a.im * b.im, a.re * b.im + a.im * b.re⟩

/-- The conversion `uint(f)` of a non-negative float: the integer part when it fits 64 bits.
For a value that does not fit the result is implementation-dependent in Go; it is taken
from the parameter `ovf`. -/
def toUint (ovf : ℚ → Nat) (q : ℚ) : Nat :=
  if q < 2 ^ 64 then (Rat.floor q).toNat else ovf q % 2 ^ 64

/-- The function `complexModulusSquared`: `uint(real(c)*real(c) + imag(c)*imag(c))`. -/
def complexModulusSquared (ovf : ℚ → Nat) (c : Complex128) : Nat :=
  toUint ovf (c.re * c.re + c.im * c.im)

/-- The loop of `mandelbrot`, started from the values `z` and `n` (a `uint8`). -/
def mandelbrotLoop (ovf : ℚ → Nat) (c z : Complex128) (n : Nat) : Nat :=
  if complexModulusSquared ovf z ≤ 4 ∧ n < maxIteration then
    mandelbrotLoop ovf c ((z.mul z).add c) ((n + 1) % 256)
  else n
termination_by maxIteration - n
decreasing_by
  simp only [maxIteration] at *
  omega

/-- The function `mandelbrot`. -/
def mandelbrot (ovf : ℚ → Nat) (c : Complex128) : Nat :=
  mandelbrotLoop ovf c ⟨0, 0⟩ 0

/-- The orbit of the specification: `z_0 = 0`, `z_{k+1} = z_k^2 + c`. -/
def orbit (c : Complex128) : Nat → Complex128
  | 0 => ⟨0, 0⟩
  | k + 1 => ((orbit c k).mul (orbit c k)).add c

/-- The squared modulus `|z|^2`, exactly. -/
def normSq (z : Complex128) : ℚ := z.re * z.re + z.im * z.im

/-- The escape-time count of the specification: the least `k` such that `|z_k|^2 > 4` or
`k = maxIteration`. -/
def escapeTime (c : Complex128) : Nat :=
  Nat.find (⟨maxIteration, Or.inr rfl⟩ : ∃ k, 4 < normSq (orbit c k) ∨ k = maxIteration)

/-- The count the code computes: the least `k` such that `complexModulusSquared(z_k) > 4` or
`k = maxIteration`. -/
def truncatedEscapeTime (ovf : ℚ → Nat) (c : Complex128) : Nat :=
  Nat.find (⟨maxIteration, Or.inr rfl⟩ :
    ∃ k, 4 < complexModulusSquared ovf (orbit c k) ∨ k = maxIteration)

/-- The count the code computes when `|z_k|^2` fits 64 bits: the least `k` such that
`floor(|z_k|^2) > 4`, that is `|z_k|^2 ≥ 5`, or `k = maxIteration`. -/
def floorEscapeTime (c : Complex128) : Nat :=
  Nat.find (⟨maxIteration, Or.inr rfl⟩ : ∃ k, 5 ≤ normSq (orbit c k) ∨ k = maxIteration)

/-- World represents the game state. -/
structure World where
  iterations : List Nat
  width : Int
  height : Int
  realMin : ℚ
  realMax : ℚ
  imagMin : ℚ
  imagMax : ℚ
  palette : Fin (maxIteration + 1) → Nat

/-- The expression `byte(math.Sqrt(float64(i)/float64(n)) * 0xff)` over exact arithmetic: the
integer part of `sqrt(i/n) * 255` is the integer square root of the integer part of
`i * 255 * 255 / n`. -/
def paletteByte (i n : Nat) : Nat := Nat.sqrt (i * 0xff * 0xff / n) % 256

/-- The body of the inner loop of `World.Update` for the cell `(x, y)`. -/
def updateCell (ovf : ℚ → Nat) (w : World) (width height y x : Int) (next : List Nat) :
    Except Fault (List Nat) :=
  let c : Complex128 :=
    ⟨w.realMin + ((x : ℚ) / (width : ℚ)) * (w.realMax - w.realMin),
     w.imagMin + ((y : ℚ) / (height : ℚ)) * (w.imagMax - w.imagMin)⟩
  store next (y * width + x) (mandelbrot ovf c)

/-- Update game state by one tick.  The product `width*height` and the indices `y*width+x`
are exact, which are the values the code computes when the product lies in
`[-2^63, 2^63)`. -/
def World.Update (ovf : ℚ → Nat) (w : World) : Except Fault World := do
  let width := w.width
  let height := w.height
  let next ← make 0 (width * height)
  let next ← forRange height
    (fun y next => forRange width (fun x next => updateCell ovf w width height y x next) next)
    next
  .ok { w with iterations := next }

/-- The complex coordinate that `World.Update` evaluates for the cell `(x, y)`. -/
def cellCoordinate (w : World) (x y : Nat) : Complex128 :=
  ⟨w.realMin + ((x : ℚ) / (w.width : ℚ)) * (w.realMax - w.realMin),
   w.imagMin + ((y : ℚ) / (w.height : ℚ)) * (w.imagMax - w.imagMin)⟩

/-- The value that `World.Update` stores in the cell with linear index `j`. -/
def nextCell (ovf : ℚ → Nat) (w : World) (j : Nat) : Nat :=
  mandelbrot ovf (cellCoordinate w (j % w.width.toNat) (j / w.width.toNat))

/-- NewWorld creates a new world.  The product `width*height` is exact, which is the value
the code computes when it lies in `[-2^63, 2^63)`. -/
def NewWorld (ovf : ℚ → Nat) (width height : Int) : Except Fault World := do
  let iterations ← make 0 (width * height)
  let palette := (List.finRange (maxIteration + 1)).foldl
    (fun p i => Function.update p i (paletteByte i.val (maxIteration + 1))) (fun _ => 0)
  World.Update ovf
    { iterations := iterations, width := width, height := height,
      realMin := -2, realMax := 1, imagMin := -1, imagMax := 1, palette := palette }

/-- The body of the loop of `World.Draw` for cell `i`.  The palette is an array of
`maxIteration + 1` bytes, so an index above `maxIteration` panics; `255 - colorOffset` cannot
wrap for a byte. -/
def drawCell (w : World) (i : Int) (pix : List Nat) : Except (List Nat) (List Nat) :=
  match index w.iterations i with
  | .error _ => .error pix
  | .ok it =>
    if h : it < maxIteration + 1 then do
      let colorOffset := w.palette ⟨it, h⟩
      let pix ← pixStore pix (4 * i) (255 - colorOffset)
      let pix ← pixStore pix (4 * i + 1) (255 - colorOffset)
      let pix ← pixStore pix (4 * i + 2) (255 - colorOffset)
      pixStore pix (4 * i + 3) 0xff
    else .error pix

/-- Draw paints current game state. -/
def World.Draw (w : World) (pix : List Nat) : Except (List Nat) (List Nat) :=
  forRange w.iterations.length (fun i pix => drawCell w i pix) pix

/-- The palette entry for an iteration count (0 for a count that is not an index). -/
def paletteAt (palette : Fin (maxIteration + 1) → Nat) (it : Nat) : Nat :=
  if h : it < maxIteration + 1 then palette ⟨it, h⟩ else 0

/-- The byte at index `j` of the buffer after `World.Draw` painted the cell `j / 4`. -/
def drawnByte (w : World) (j : Nat) : Nat :=
  if j % 4 = 3 then 0xff else 255 - paletteAt w.palette (w.iterations.getD (j / 4) 0)

end Fractal

namespace Life

/-- The grid `a` of `width*height` cells holds the cell values `p x y`. -/
def HasCells (a : List Bool) (width height : Int) (p : Int → Int → Bool) : Prop :=
  (a.length : Int) = width * height ∧
  ∀ x y : Int, 0 ≤ x → x < width → 0 ≤ y → y < height → index a (y * width + x) = .ok (p x y)

/-- One generation of the Game of Life on cell values: the rule applied to the number of
live cells among the eight neighbours that lie on the grid. -/
def lifeStep (width height : Int) (p : Int → Int → Bool) : Int → Int → Bool :=
  fun x y => lifeRule (p x y)
    (mooreOffsets.countP (fun o =>
      decide (0 ≤ x + o.1 ∧ x + o.1 < width ∧ 0 ≤ y + o.2 ∧ y + o.2 < height) &&
        p (x + o.1) (y + o.2)))

/-- The horizontal blinker: the only live cells are `(x-1, y)`, `(x, y)`, `(x+1, y)`. -/
def blinkerH (x y : Int) : Int → Int → Bool :=
  fun cx cy => decide (cy = y ∧ x - 1 ≤ cx ∧ cx ≤ x + 1)

/-- The vertical blinker: the only live cells are `(x, y-1)`, `(x, y)`, `(x, y+1)`. -/
def blinkerV (x y : Int) : Int → Int → Bool :=
  fun cx cy => decide (cx = x ∧ y - 1 ≤ cy ∧ cy ≤ y + 1)

/-- The constant `screenWidth` of life.go. -/
def screenWidth : Int := 850

/-- The constant `screenHeight` of life.go. -/
def screenHeight : Int := 550

/-- The struct `Game`: the world and the pixel buffer, `nil` until the first `Draw`. -/
structure Game where
  world : World
  pixels : Option (List Nat)
  deriving DecidableEq, Repr

/-- The method `Game.Update`: one tick of the world. -/
def Game.Update (draws : Nat → Nat) (g : Game) (pos : Nat) : Except Fault (Game × Nat) := do
  let r ← g.world.Update draws pos
  .ok ({ g with world := r.1 }, r.2)

/-- The method `Game.Draw`: allocates the zero-filled buffer of `screenWidth*screenHeight*4`
bytes when `g.pixels` is `nil`, then paints the world into it.  Handing the buffer to the
screen and the debug text are output only and are left out. -/
def Game.Draw (g : Game) : Except (List Nat) Game :=
  let pixels := match g.pixels with
    | none => List.replicate (screenWidth * screenHeight * 4).toNat 0
    | some p => p
  match g.world.Draw pixels with
  | .ok p => .ok { g with pixels := some p }
  | .error p => .error p

/-- A call that the host makes on the game. -/
inductive Call where
  | update
  | draw
  deriving DecidableEq, Repr

/-- One call on the game; the state is the game and the position of the random source.  A
panic of `Draw` is reported as the index panic it is. -/
def Game.call (draws : Nat → Nat) (c : Call) (s : Game × Nat) : Except Fault (Game × Nat) :=
  match c with
  | .update => Game.Update draws s.1 s.2
  | .draw =>
    match Game.Draw s.1 with
    | .ok g => .ok (g, s.2)
    | .error _ => .error .indexOutOfRange

/-- A finite sequence of calls on the game, in order. -/
def Game.run (draws : Nat → Nat) (calls : List Call) (s : Game × Nat) :
    Except Fault (Game × Nat) :=
  calls.foldlM (fun s c => Game.call draws c s) s

/-- Consecutive `World.Draw` calls into one buffer, one for each frame; `ws` lists the world
as it is at each frame. -/
def drawFrames (ws : List World) (pix : List Nat) : Except (List Nat) (List Nat) :=
  ws.foldlM (fun p w => w.Draw p) pix

/-- The values `2^j - 1` of a byte. -/
def allOnes : List Nat := [0, 1, 3, 7, 15, 31, 63, 127, 255]

end Life
end Gofrac

/-! # Theorems -/

namespace Gofrac

@[simp]
theorem ok_bind {ε α β : Type} (a : α) (f : α → Except ε β) :
    (Except.ok a >>= f) = f a := rfl

@[simp]
theorem error_bind {ε α β : Type} (e : ε) (f : α → Except ε β) :
    (Except.error e >>= f) = Except.error e := rfl

@[simp]
theorem pure_eq_ok {ε α : Type} (a : α) : (pure a : Except ε α) = Except.ok a := rfl

theorem toNat_lt_length {α : Type} (a : List α) (i : Int) (h0 : 0 ≤ i) (h : i < (a.length : Int)) :
    i.toNat < a.length := by omega

theorem index_eq_ok {α : Type} (a : List α) (i : Int) (h0 : 0 ≤ i) (h : i < (a.length : Int)) :
    index a i = .ok (a.get ⟨i.toNat, toNat_lt_length a i h0 h⟩) := by
  unfold index
  rw [if_neg (not_lt.mpr h0), List.getElem?_eq_getElem (toNat_lt_length a i h0 h)]
  rfl

theorem cell_index_bounds (width height x y : Int) (hx0 : 0 ≤ x) (hx : x < width)
    (hy0 : 0 ≤ y) (hy : y < height) : 0 ≤ y * width + x ∧ y * width + x < width * height := by
  constructor
  · nlinarith
  · nlinarith

namespace Life

theorem neighbourStep_eq (a : List Bool) (width height x y j i c : Int)
    (hlen : (a.length : Int) = width * height) :
    neighbourStep a width height x y j i c =
      .ok (c + if (i = 0 ∧ j = 0) then 0 else if liveAt a width height (x + i) (y + j) then 1 else 0) := by
  unfold neighbourStep
  by_cases h0 : i = 0 ∧ j = 0
  · simp [h0]
  · rw [if_neg h0, if_neg h0]
    by_cases hr : x + i < 0 ∨ y + j < 0 ∨ width ≤ x + i ∨ height ≤ y + j
    · have : liveAt a width height (x + i) (y + j) = false := by
        unfold liveAt
        simp only [Bool.and_eq_false_imp, decide_eq_true_eq]
        intro h; omega
      simp [hr, this]
    · simp only [hr, if_false]
      have hb := cell_index_bounds width height (x + i) (y + j) (by omega) (by omega) (by omega) (by omega)
      rw [index_eq_ok a _ hb.1 (by omega)]
      simp only [ok_bind]
      have hin : 0 ≤ x + i ∧ x + i < width ∧ 0 ≤ y + j ∧ y + j < height := by omega
      have hlt := toNat_lt_length a _ hb.1 (by omega : (y + j) * width + (x + i) < (a.length : Int))
      unfold liveAt
      simp only [hin, and_self, decide_True, Bool.true_and, List.get_eq_getElem,
        List.getElem?_eq_getElem hlt]
      by_cases hv : a[((y + j) * width + (x + i)).toNat] = true <;> simp [hv]

theorem neighbourCount_eq (a : List Bool) (width height x y : Int)
    (hlen : (a.length : Int) = width * height) :
    neighbourCount a width height x y = .ok (mooreCount a width height x y : Int) := by
  unfold neighbourCount mooreCount mooreOffsets
  simp only [List.foldlM_cons, List.foldlM_nil, neighbourStep_eq a width height x y _ _ _ hlen,
    ok_bind, pure_eq_ok, List.countP_cons, List.countP_nil]
  congr 1
  simp
  split_ifs <;> simp

theorem mooreCount_le (a : List Bool) (width height x y : Int) :
    mooreCount a width height x y ≤ 8 := by
  unfold mooreCount
  exact (List.countP_le_length _).trans (by simp [mooreOffsets])

end Life

theorem forRange_inv {ε σ : Type} (n : Int) (body : Int → σ → Except ε σ) (I : Nat → σ → Prop)
    (s : σ) (h0 : I 0 s)
    (hstep : ∀ (i : Nat) (t : σ), i < n.toNat → I i t → ∃ t', body (i : Int) t = .ok t' ∧ I (i + 1) t') :
    ∃ s', forRange n body s = .ok s' ∧ I n.toNat s' := by
  unfold forRange
  generalize n.toNat = m at hstep
  induction m with
  | zero => exact ⟨s, rfl, h0⟩
  | succ m ih =>
    obtain ⟨t, ht, hI⟩ := ih (fun i t hi => hstep i t (by omega))
    obtain ⟨t', ht', hI'⟩ := hstep m t (by omega) hI
    refine ⟨t', ?_, hI'⟩
    rw [List.range_succ, List.foldlM_append, ht]
    simp [ht']

theorem forRange_nested_inv {ε σ : Type} (h w : Int) (body : Int → Int → σ → Except ε σ)
    (I : Nat → σ → Prop) (s : σ) (h0 : I 0 s)
    (hstep : ∀ (y x : Nat) (t : σ), y < h.toNat → x < w.toNat → I (y * w.toNat + x) t →
      ∃ t', body (y : Int) (x : Int) t = .ok t' ∧ I (y * w.toNat + x + 1) t') :
    ∃ s', forRange h (fun y t => forRange w (fun x t => body y x t) t) s = .ok s' ∧
      I (h.toNat * w.toNat) s' := by
  refine forRange_inv h _ (fun y t => I (y * w.toNat) t) s (by simpa using h0) ?_
  intro y t hy hI
  obtain ⟨t', ht', hI'⟩ := forRange_inv w (fun x t => body y x t) (fun x t => I (y * w.toNat + x) t) t
    (by simpa using hI) (fun x t hx hIx => hstep y x t hy hx hIx)
  exact ⟨t', ht', by simpa [Nat.succ_mul] using hI'⟩

theorem index_of_getElem? {α : Type} (a : List α) (i : Int) (v : α) (h0 : 0 ≤ i)
    (h : a[i.toNat]? = some v) : index a i = .ok v := by
  unfold index
  rw [if_neg (not_lt.mpr h0), h]

theorem store_eq_ok {α : Type} (a : List α) (i : Int) (v : α) (h0 : 0 ≤ i)
    (h : i < (a.length : Int)) : store a i v = .ok (a.set i.toNat v) := by
  unfold store
  rw [if_neg (not_lt.mpr h0), if_pos (toNat_lt_length a i h0 h)]

namespace Life

theorem mutation_eq (draws : Nat → Nat) (state : Bool) (pos : Nat) :
    mutation draws state pos = .ok (flipOn42 (draws pos) state, pos + 1) := by
  unfold mutation Intn flipOn42
  simp only [show ¬ ((999999 : Int) ≤ 0) by decide, if_false, ok_bind]
  have : ((draws pos : Int) % 999999 = 42) ↔ (draws pos % 999999 = 42) := by omega
  by_cases h : draws pos % 999999 = 42
  · rw [if_pos (this.mpr h), if_pos h]
  · rw [if_neg (fun h' => h (this.mp h')), if_neg h]

theorem updateCell_eq (draws : Nat → Nat) (w : World) (width height y x : Int)
    (st : List Bool × Nat) (hlen : (w.area.length : Int) = width * height)
    (hx0 : 0 ≤ x) (hx : x < width) (hy0 : 0 ≤ y) (hy : y < height)
    (hst : st.1.length = w.area.length)
    (hfalse : st.1[(y * width + x).toNat]? = some false) :
    ∃ alive, index w.area (y * width + x) = .ok alive ∧
      updateCell draws w width height y x st =
        .ok (st.1.set (y * width + x).toNat
          (flipOn42 (draws st.2) (lifeRule alive (mooreCount w.area width height x y))), st.2 + 1) := by
  have hb := cell_index_bounds width height x y hx0 hx hy0 hy
  have hlt : y * width + x < (w.area.length : Int) := by omega
  have hlt' : y * width + x < (st.1.length : Int) := by omega
  have hk := toNat_lt_length st.1 _ hb.1 hlt'
  refine ⟨_, index_eq_ok w.area _ hb.1 hlt, ?_⟩
  generalize hal : w.area.get ⟨(y * width + x).toNat, toNat_lt_length w.area _ hb.1 hlt⟩ = alive
  have hidx : index w.area (y * width + x) = .ok alive := by
    rw [index_eq_ok w.area _ hb.1 hlt, hal]
  have hset : ∀ (l : List Bool) (v : Bool), l.length = st.1.length →
      index (l.set (y * width + x).toNat v) (y * width + x) = .ok v := by
    intro l v hl
    apply index_of_getElem? _ _ _ hb.1
    rw [List.getElem?_set]; simp [hl, hk]
  have hstore : ∀ (l : List Bool) (v : Bool), l.length = st.1.length →
      store l (y * width + x) v = .ok (l.set (y * width + x).toNat v) := by
    intro l v hl
    exact store_eq_ok l _ v hb.1 (by omega)
  have hdef : index st.1 (y * width + x) = .ok false := index_of_getElem? _ _ _ hb.1 hfalse
  unfold updateCell
  rw [neighbourCount_eq w.area width height x y hlen]
  simp only [ok_bind]
  generalize mooreCount w.area width height x y = n
  by_cases h2 : (n : Int) < 2
  · have : lifeRule alive n = false := by
      unfold lifeRule; cases alive <;> simp <;> omega
    simp [h2, hstore, hset, mutation_eq, this]
  · by_cases h23 : (n : Int) = 2 ∨ (n : Int) = 3
    · cases alive
      · rcases h23 with h | h
        · have : lifeRule false n = false := by unfold lifeRule; simp; omega
          rw [this]; simp [h, hidx, hdef, mutation_eq, hstore]
        · have : lifeRule false n = true := by unfold lifeRule; simp; omega
          rw [this]; simp [h, hidx, hset, mutation_eq, hstore]
      · have : lifeRule true n = true := by unfold lifeRule; simp; omega
        simp [h2, h23, hidx, hset, mutation_eq, hstore, this]
    · have : lifeRule alive n = false := by
        unfold lifeRule; cases alive <;> simp <;> omega
      have h3 : (n : Int) > 3 := by omega
      have h3' : ¬ (n : Int) = 3 := by omega
      simp [h2, h23, h3, hset, mutation_eq, hstore, this]

theorem cell_coords (W x y : Nat) (hx : x < W) : (y * W + x) % W = x ∧ (y * W + x) / W = y := by
  constructor
  · rw [Nat.add_comm, Nat.add_mul_mod_self_right, Nat.mod_eq_of_lt hx]
  · rw [Nat.add_comm, Nat.add_mul_div_right _ _ (by omega : 0 < W), Nat.div_eq_of_lt hx, Nat.zero_add]

theorem cell_index_cast (width : Int) (x y : Nat) (hx : x < width.toNat) :
    (y : Int) * width + (x : Int) = ((y * width.toNat + x : Nat) : Int) := by
  have : ((width.toNat : Nat) : Int) = width := Int.toNat_of_nonneg (by omega)
  push_cast
  rw [this]

theorem update_loop (draws : Nat → Nat) (w : World) (pos : Nat)
    (hlen : (w.area.length : Int) = w.width * w.height) :
    ∃ st, forRange w.height (fun y st => forRange w.width
        (fun x st => updateCell draws w w.width w.height y x st) st)
        (List.replicate (w.width * w.height).toNat false, pos) = .ok st ∧
      st.2 = pos + w.height.toNat * w.width.toNat ∧ st.1.length = w.area.length ∧
      ∀ j, j < w.area.length → st.1[j]? =
        some (if j < w.height.toNat * w.width.toNat then nextCell draws w pos j else false) := by
  have hN : (w.width * w.height).toNat = w.area.length := by omega
  refine forRange_nested_inv w.height w.width (fun y x st => updateCell draws w w.width w.height y x st)
    (fun k st => st.2 = pos + k ∧ st.1.length = w.area.length ∧
      ∀ j, j < w.area.length → st.1[j]? = some (if j < k then nextCell draws w pos j else false))
    _ ⟨rfl, by simp [hN], ?_⟩ ?_
  · intro j hj
    simp [hN, hj]
  · rintro y x ⟨l, p⟩ hy hx ⟨hp, hl, hcells⟩
    simp only at hp hl hcells
    have hw : ((w.width.toNat : Nat) : Int) = w.width := Int.toNat_of_nonneg (by omega)
    have hh : ((w.height.toNat : Nat) : Int) = w.height := Int.toNat_of_nonneg (by omega)
    have hcast := cell_index_cast w.width x y hx
    have hkN : y * w.width.toNat + x < w.area.length := by
      have h1 : y * w.width.toNat + x < w.height.toNat * w.width.toNat := by nlinarith
      have h2 : ((w.height.toNat * w.width.toNat : Nat) : Int) = (w.area.length : Int) := by
        push_cast; rw [hw, hh, hlen]; ring
      omega
    have hfalse : l[((y : Int) * w.width + (x : Int)).toNat]? = some false := by
      rw [hcast, Int.toNat_ofNat, hcells _ hkN]; simp
    obtain ⟨alive, hal, hup⟩ := updateCell_eq draws w w.width w.height y x (l, p) hlen
      (by omega) (by omega) (by omega) (by omega) hl hfalse
    refine ⟨_, hup, ?_, ?_, ?_⟩
    · simp only; omega
    · simp [hl]
    · intro j hj
      simp only [hcast, Int.toNat_ofNat, List.getElem?_set]
      by_cases hjk : y * w.width.toNat + x = j
      · subst hjk
        have hlj : y * w.width.toNat + x < l.length := by omega
        rw [if_pos rfl, if_pos hlj, if_pos (by omega)]
        congr 1
        unfold nextCell
        rw [(cell_coords _ x y hx).1, (cell_coords _ x y hx).2, hp]
        congr 2
        rw [hcast] at hal
        unfold index at hal
        rw [if_neg (by omega), Int.toNat_ofNat] at hal
        revert hal
        cases w.area[y * w.width.toNat + x]? <;> simp
        exact fun h => h.symm
      · rw [if_neg hjk, hcells j hj]
        congr 1
        by_cases hlt : j < y * w.width.toNat + x
        · rw [if_pos hlt, if_pos (by omega)]
        · rw [if_neg hlt, if_neg (by omega)]

/-- C1: for every world with `len(area) = width*height`, every random source and every
position of it, automaton `World.Update` returns a world of the same shape whose cell
`(x, y)` is the mutation of `r = (n == 3) or (old cell alive and n == 2)`, where `n` is
`neighbourCount` of the old grid at `(x, y)`; the cell `(x, y)` uses its own draw, the one
at position `pos + y*width + x`, and the mutation flips `r` exactly when that draw from
`[0, 999999)` is 42.  Hence `n < 2` gives dead, a live cell with `n` in `{2, 3}` stays
alive, `n > 3` gives dead, a dead cell with `n = 3` becomes alive and a dead cell with
`n = 2` stays dead. -/
theorem update_applies_rule_then_mutation (draws : Nat → Nat) (w : World) (pos : Nat)
    (hlen : (w.area.length : Int) = w.width * w.height) :
    (∃ next, World.Update draws w pos =
        .ok ({ w with area := next }, pos + w.height.toNat * w.width.toNat) ∧
      next.length = w.area.length ∧
      ∀ x y : Nat, (x : Int) < w.width → (y : Int) < w.height →
        ∃ (n : Int) (alive : Bool),
          neighbourCount w.area w.width w.height x y = .ok n ∧
          index w.area (y * w.width + x) = .ok alive ∧
          index next (y * w.width + x) =
            .ok (flipOn42 (draws (pos + (y * w.width.toNat + x))) (lifeRule alive n))) ∧
    (∀ (alive : Bool) (n : Int),
      lifeRule alive n = (decide (n = 3) || (alive && decide (n = 2))) ∧
      (n < 2 → lifeRule alive n = false) ∧ (n = 2 ∨ n = 3 → lifeRule true n = true) ∧
      (3 < n → lifeRule alive n = false) ∧ (n = 3 → lifeRule false n = true) ∧
      (n = 2 → lifeRule false n = false)) ∧
    (∀ (raw : Nat) (r : Bool), raw % 999999 < 999999 ∧
      (raw % 999999 = 42 → flipOn42 raw r = !r) ∧ (raw % 999999 ≠ 42 → flipOn42 raw r = r)) := by
  refine ⟨?_, ?_, ?_⟩
  · obtain ⟨st, hrun, hpos, hl, hcells⟩ := update_loop draws w pos hlen
    refine ⟨st.1, ?_, hl, ?_⟩
    · unfold World.Update make
      simp only [if_neg (by omega : ¬ w.width * w.height < 0), ok_bind, hrun, hpos]
    · intro x y hx hy
      have hxW : x < w.width.toNat := by omega
      have hyH : y < w.height.toNat := by omega
      have hw : ((w.width.toNat : Nat) : Int) = w.width := Int.toNat_of_nonneg (by omega)
      have hh : ((w.height.toNat : Nat) : Int) = w.height := Int.toNat_of_nonneg (by omega)
      have hcast := cell_index_cast w.width x y hxW
      have hk : y * w.width.toNat + x < w.height.toNat * w.width.toNat := by nlinarith
      have hkN : y * w.width.toNat + x < w.area.length := by
        have h2 : ((w.height.toNat * w.width.toNat : Nat) : Int) = (w.area.length : Int) := by
          push_cast; rw [hw, hh, hlen]; ring
        omega
      refine ⟨_, w.area[y * w.width.toNat + x], neighbourCount_eq w.area _ _ _ _ hlen, ?_, ?_⟩
      · rw [hcast]
        exact index_of_getElem? _ _ _ (by omega)
          (by rw [Int.toNat_ofNat]; exact List.getElem?_eq_getElem hkN)
      · rw [hcast]
        apply index_of_getElem? _ _ _ (by omega)
        rw [Int.toNat_ofNat, hcells _ hkN, if_pos hk]
        unfold nextCell
        rw [(cell_coords _ x y hxW).1, (cell_coords _ x y hxW).2]
        simp [hkN]
  · intro alive n
    unfold lifeRule
    refine ⟨rfl, ?_, ?_, ?_, ?_, ?_⟩
    · intro h; cases alive <;> simp <;> omega
    · intro h; simp; omega
    · intro h; cases alive <;> simp <;> omega
    · intro h; simp [h]
    · intro h; simp [h]
  · intro raw r
    unfold flipOn42
    refine ⟨Nat.mod_lt _ (by decide), fun h => by simp [h], fun h => by simp [h]⟩

/-- Witness of C1 on the 2x2 all-alive grid with a random source that never draws 42. -/
theorem update_applies_rule_then_mutation_witness :
    ((World.mk [true, true, true, true] 2 2).area.length : Int) = 2 * 2 ∧
    World.Update (fun _ => 0) ⟨[true, true, true, true], 2, 2⟩ 0 =
      .ok (⟨[true, true, true, true], 2, 2⟩, 4) ∧
    ∃ next, World.Update (fun _ => 0) ⟨[true, true, true, true], 2, 2⟩ 0 =
      .ok (⟨next, 2, 2⟩, 0 + (2 : Int).toNat * (2 : Int).toNat) ∧ next.length = 4 :=
  ⟨by decide, by decide,
    (update_applies_rule_then_mutation (fun _ => 0) ⟨[true, true, true, true], 2, 2⟩ 0
      (by decide)).1.imp (fun _ hn => ⟨hn.1, hn.2.1⟩)⟩

/-- C2: for a grid of `width*height` cells, `neighbourCount` returns the number of live
cells among the eight positions `(x+i, y+j)`, `(i, j) ≠ (0, 0)`, that lie inside
`[0,width) x [0,height)` (positions off the grid are skipped, not wrapped, and the cell
itself is not counted), a number between 0 and 8; this holds at every `(x, y)`, on the grid
or not.  On the 3x3 grid with only the centre alive the result is 1 at the eight border
cells and 0 at the centre. -/
theorem neighbourCount_counts_moore_neighbourhood (a : List Bool) (width height x y : Int)
    (hlen : (a.length : Int) = width * height) :
    neighbourCount a width height x y = .ok (mooreCount a width height x y : Int) ∧
    (0 : Int) ≤ (mooreCount a width height x y : Int) ∧
    (mooreCount a width height x y : Int) ≤ 8 ∧
    mooreCount a width height x y =
      ([(-1, -1), (0, -1), (1, -1), (-1, 0), (1, 0), (-1, 1), (0, 1), (1, 1)] :
        List (Int × Int)).countP
        (fun o => decide (0 ≤ x + o.1 ∧ x + o.1 < width ∧ 0 ≤ y + o.2 ∧ y + o.2 < height) &&
          (a[((y + o.2) * width + (x + o.1)).toNat]? == some true)) ∧
    (∀ cx ∈ List.range 3, ∀ cy ∈ List.range 3,
      neighbourCount centreOnly 3 3 (cx : Int) (cy : Int) =
        .ok (if cx = 1 ∧ cy = 1 then 0 else 1)) := by
  refine ⟨neighbourCount_eq a width height x y hlen, by omega, ?_, rfl, by decide⟩
  have := mooreCount_le a width height x y
  omega

/-- Witness of C2 on the 2x2 all-alive grid at the corner `(0, 0)`. -/
theorem neighbourCount_counts_moore_neighbourhood_witness :
    (([true, true, true, true] : List Bool).length : Int) = 2 * 2 ∧
    neighbourCount [true, true, true, true] 2 2 0 0 =
      .ok (mooreCount [true, true, true, true] 2 2 0 0 : Int) :=
  ⟨by decide, (neighbourCount_counts_moore_neighbourhood [true, true, true, true] 2 2 0 0
    (by decide)).1⟩

theorem pickIndex_lt (draws : Nat → Nat) (width height : Int) (pos i : Nat) (a : List Bool)
    (hw : 1 ≤ width) (hh : 1 ≤ height) (hlen : (a.length : Int) = width * height) :
    pickIndex draws width height pos i < a.length := by
  have hx0 : 0 ≤ (draws (pos + 2 * i) : Int) % width := Int.emod_nonneg _ (by omega)
  have hx : (draws (pos + 2 * i) : Int) % width < width := Int.emod_lt_of_pos _ (by omega)
  have hy0 : 0 ≤ (draws (pos + 2 * i + 1) : Int) % height := Int.emod_nonneg _ (by omega)
  have hy : (draws (pos + 2 * i + 1) : Int) % height < height := Int.emod_lt_of_pos _ (by omega)
  have hb := cell_index_bounds width height _ _ hx0 hx hy0 hy
  unfold pickIndex
  omega

theorem pickCell_eq (draws : Nat → Nat) (width height : Int) (a : List Bool) (pos i : Nat)
    (hw : 1 ≤ width) (hh : 1 ≤ height) (hlen : (a.length : Int) = width * height) :
    pickCell draws width height (a, pos + 2 * i) =
      .ok (a.set (pickIndex draws width height pos i) true, pos + 2 * i + 2) := by
  have hx0 : 0 ≤ (draws (pos + 2 * i) : Int) % width := Int.emod_nonneg _ (by omega)
  have hx : (draws (pos + 2 * i) : Int) % width < width := Int.emod_lt_of_pos _ (by omega)
  have hy0 : 0 ≤ (draws (pos + 2 * i + 1) : Int) % height := Int.emod_nonneg _ (by omega)
  have hy : (draws (pos + 2 * i + 1) : Int) % height < height := Int.emod_lt_of_pos _ (by omega)
  have hb := cell_index_bounds width height _ _ hx0 hx hy0 hy
  unfold pickCell Intn pickIndex
  simp only [if_neg (by omega : ¬ width ≤ 0), if_neg (by omega : ¬ height ≤ 0), ok_bind,
    store_eq_ok a _ true hb.1 (by omega)]

theorem applyPicks_length (draws : Nat → Nat) (width height : Int) (pos n : Nat)
    (a : List Bool) : (applyPicks draws width height pos n a).length = a.length := by
  induction n with
  | zero => rfl
  | succ n ih => simp [applyPicks, ih]

theorem pick_loop (draws : Nat → Nat) (width height m : Int) (area : List Bool) (pos : Nat)
    (hw : 1 ≤ width) (hh : 1 ≤ height) (hlen : (area.length : Int) = width * height) :
    forRange m (fun _ st => pickCell draws width height st) (area, pos) =
      .ok (applyPicks draws width height pos m.toNat area, pos + 2 * m.toNat) := by
  obtain ⟨st, hrun, h1, h2⟩ := forRange_inv m (fun _ st => pickCell draws width height st)
    (fun i st => st.1 = applyPicks draws width height pos i area ∧ st.2 = pos + 2 * i)
    (area, pos) ⟨rfl, rfl⟩ (by
      rintro i ⟨a, p⟩ _ ⟨ha, hp⟩
      simp only at ha hp
      subst ha hp
      exact ⟨_, pickCell_eq draws width height _ pos i hw hh
        (by rw [applyPicks_length]; exact hlen), rfl, by simp only; omega⟩)
  rw [hrun]
  congr 1
  exact Prod.ext h1 h2

theorem liveCount_set_true (a : List Bool) (i : Nat) (h : i < a.length) :
    liveCount (a.set i true) = liveCount a + (if a[i] = true then 0 else 1) := by
  unfold liveCount
  rw [List.count_set true true a i h]
  have hle : (if a[i] = true then 1 else 0) ≤ a.count true := by
    by_cases hv : a[i] = true
    · simp only [hv, if_true]
      exact List.count_pos_iff.mpr (hv ▸ List.getElem_mem _)
    · simp [hv]
  by_cases hv : a[i] = true
  · simp only [hv, beq_self_eq_true, if_true] at hle ⊢
    omega
  · simp [hv]

theorem applyPicks_liveCount (draws : Nat → Nat) (width height : Int) (pos n : Nat)
    (a : List Bool) (hw : 1 ≤ width) (hh : 1 ≤ height)
    (hlen : (a.length : Int) = width * height) :
    liveCount a ≤ liveCount (applyPicks draws width height pos n a) ∧
    liveCount (applyPicks draws width height pos n a) ≤ liveCount a + n ∧
    (0 < n → 1 ≤ liveCount (applyPicks draws width height pos n a)) := by
  induction n with
  | zero => exact ⟨le_refl _, le_refl _, fun h => absurd h (by omega)⟩
  | succ n ih =>
    have hl := applyPicks_length draws width height pos n a
    have hi : pickIndex draws width height pos n <
        (applyPicks draws width height pos n a).length := by
      rw [hl]; exact pickIndex_lt draws width height pos n a hw hh hlen
    have hc := liveCount_set_true _ _ hi
    simp only [applyPicks]
    split_ifs at hc with hv
    · refine ⟨by omega, by omega, fun _ => ?_⟩
      rw [hc, Nat.add_zero]
      exact List.count_pos_iff.mpr (hv ▸ List.getElem_mem _)
    · exact ⟨by omega, by omega, fun _ => by omega⟩

theorem applyPicks_getElem? (draws : Nat → Nat) (width height : Int) (pos n : Nat)
    (a : List Bool) (j : Nat) (hj : ∀ i, i < n → pickIndex draws width height pos i ≠ j) :
    (applyPicks draws width height pos n a)[j]? = a[j]? := by
  induction n with
  | zero => rfl
  | succ n ih =>
    simp only [applyPicks]
    rw [List.getElem?_set, if_neg (hj n (by omega))]
    exact ih (fun i hi => hj i (by omega))

theorem applyPicks_distinct (draws : Nat → Nat) (width height : Int) (pos n : Nat)
    (a : List Bool) (hw : 1 ≤ width) (hh : 1 ≤ height)
    (hlen : (a.length : Int) = width * height) (hdead : ∀ c ∈ a, c = false)
    (hinj : ∀ i j, i < j → j < n →
      pickIndex draws width height pos i ≠ pickIndex draws width height pos j) :
    liveCount (applyPicks draws width height pos n a) = n := by
  induction n with
  | zero =>
    simp only [applyPicks, liveCount]
    exact List.count_eq_zero.mpr (fun h => by simpa using hdead true h)
  | succ n ih =>
    have hl := applyPicks_length draws width height pos n a
    have hlt := pickIndex_lt draws width height pos n a hw hh hlen
    have hi : pickIndex draws width height pos n <
        (applyPicks draws width height pos n a).length := by rw [hl]; exact hlt
    have hget := applyPicks_getElem? draws width height pos n a
      (pickIndex draws width height pos n) (fun i hi' => hinj i n hi' (by omega))
    have hfalse : (applyPicks draws width height pos n a)[pickIndex draws width height pos n]
        = false := by
      rw [List.getElem?_eq_getElem hi, List.getElem?_eq_getElem hlt, Option.some.injEq] at hget
      rw [hget]
      exact hdead _ (List.getElem_mem _)
    simp only [applyPicks]
    rw [liveCount_set_true _ _ hi, hfalse, ih (fun i j hij hj => hinj i j hij (by omega))]
    simp

theorem count_loop (area : List Bool) (m : Int) :
    forRange area.length (fun i m => countCell area i m) m = .ok (m - liveCount area) := by
  obtain ⟨r, hrun, hr⟩ := forRange_inv (area.length : Int) (fun i m => countCell area i m)
    (fun i r => r = m - (area.take i).count true) m (by simp) (by
      intro i r hi hr
      have hi' : i < area.length := by omega
      refine ⟨r - (if area[i] then 1 else 0), ?_, ?_⟩
      · unfold countCell
        dsimp only
        rw [index_of_getElem? area (i : Int) area[i] (by omega)
          (by rw [Int.toNat_ofNat]; exact List.getElem?_eq_getElem hi')]
        by_cases hv : area[i] = true <;> simp [hv]
      · dsimp only
        rw [List.take_succ, List.count_append, List.getElem?_eq_getElem hi', hr]
        by_cases hv : area[i] = true <;> simp [hv]
        omega)
  rw [hrun, hr]
  simp [liveCount]

theorem initRound_eq (draws : Nat → Nat) (w : World) (m : Int) (pos : Nat)
    (hw : 1 ≤ w.width) (hh : 1 ≤ w.height) (hlen : (w.area.length : Int) = w.width * w.height) :
    World.initRound draws w m pos =
      .ok ({ w with area := applyPicks draws w.width w.height pos m.toNat w.area },
        m - liveCount (applyPicks draws w.width w.height pos m.toNat w.area),
        pos + 2 * m.toNat) := by
  unfold World.initRound
  simp only [pick_loop draws w.width w.height m w.area pos hw hh hlen, ok_bind, count_loop]

theorem init_run (draws : Nat → Nat) (bound : Int) (fuel : Nat) :
    ∀ (w : World) (m : Int) (pos rounds : Nat), 1 ≤ w.width → 1 ≤ w.height →
      (w.area.length : Int) = w.width * w.height → m.toNat ≤ fuel →
      (liveCount w.area : Int) ≤ bound → (0 < m → (liveCount w.area : Int) + m ≤ bound) →
      ∃ area pos' r, World.init draws fuel w m pos rounds = .finished { w with area := area } pos' r ∧
        area.length = w.area.length ∧ r ≤ rounds + m.toNat ∧
        (liveCount area : Int) ≤ bound ∧ liveCount w.area ≤ liveCount area ∧
        (0 < m → 1 ≤ liveCount area) := by
  induction fuel with
  | zero =>
    intro w m pos rounds _ _ _ hm hb _
    have hneg : ¬ m > 0 := by omega
    exact ⟨w.area, pos, rounds, by rw [World.init, if_neg hneg], rfl, by omega, hb, le_refl _,
      fun h => absurd h hneg⟩
  | succ fuel ih =>
    intro w m pos rounds hw hh hlen hm hb hbm
    by_cases hpos : m > 0
    · have hround := initRound_eq draws w m pos hw hh hlen
      have hl := applyPicks_length draws w.width w.height pos m.toNat w.area
      obtain ⟨c1, c2, c3⟩ := applyPicks_liveCount draws w.width w.height pos m.toNat w.area
        hw hh hlen
      have c3' := c3 (by omega)
      have hbm' := hbm hpos
      obtain ⟨area', pos', r, hrun, hl', hr, hle, hmono, _⟩ :=
        ih { w with area := applyPicks draws w.width w.height pos m.toNat w.area }
          (m - liveCount (applyPicks draws w.width w.height pos m.toNat w.area))
          (pos + 2 * m.toNat) (rounds + 1) hw hh (by simpa [hl] using hlen) (by omega)
          (by simp only; omega) (by simp only; omega)
      refine ⟨area', pos', r, ?_, by simpa [hl] using hl', by omega, hle, ?_, fun _ => ?_⟩
      · simp only [World.init, if_pos hpos, hround]
        exact hrun
      · simp only at hmono; omega
      · simp only at hmono; omega
    · exact ⟨w.area, pos, rounds, by rw [World.init, if_neg hpos], rfl, by omega, hb, le_refl _,
        fun h => absurd h hpos⟩

/-- C3 (evaluation at the failing input): on the 2x1 grid with target `k = 2 = width*height`
and a random source whose picks all hit the cell `(0, 0)`, `NewWorld` finishes after two
rounds with one live cell: the first round leaves one live cell and a budget of `2 - 1 = 1`,
the second round picks the same cell and the recount subtracts the one live cell again, so
the retry loop stops with fewer than `k` live cells and a grid that is not all alive. -/
theorem init_stops_below_target :
    NewWorld (fun _ => 0) 2 2 1 2 0 = .finished ⟨[true, false], 2, 1⟩ 6 2 ∧
    liveCount [true, false] = 1 ∧ ¬ (2 ≤ liveCount [true, false]) ∧
    ¬ (∀ c ∈ [true, false], c = true) := by
  decide

theorem init_done (draws : Nat → Nat) (fuel : Nat) (w : World) (m : Int) (pos rounds : Nat)
    (hm : ¬ m > 0) : World.init draws fuel w m pos rounds = .finished w pos rounds := by
  cases fuel <;> rw [World.init, if_neg hm]

/-- C4: seeding terminates.  For every world with `width, height ≥ 1` and
`len(area) = width*height`, every budget `k` (in particular `0 ≤ k ≤ width*height`) and every
random source, the outer loop of `init(k)` stops without a panic after at most `k` rounds,
whenever at least `k` rounds are allowed; the same holds for `init` as called by
`NewWorld` on the fresh grid, whenever `width*height < 2^63`, so that the product that
`NewWorld` forms does not wrap. -/
theorem init_stops_within_k_rounds (draws : Nat → Nat) (width height k : Int)
    (pos fuel : Nat) (hw : 1 ≤ width) (hh : 1 ≤ height) (hfuel : k.toNat ≤ fuel) :
    (∀ a : List Bool, (a.length : Int) = width * height →
      ∃ area pos' rounds,
        World.init draws fuel ⟨a, width, height⟩ k pos 0 = .finished ⟨area, width, height⟩ pos' rounds ∧
        rounds ≤ k.toNat ∧ area.length = a.length) ∧
    (width * height < 2 ^ 63 → ∃ area pos' rounds,
      NewWorld draws fuel width height k pos = .finished ⟨area, width, height⟩ pos' rounds ∧
      rounds ≤ k.toNat ∧ (area.length : Int) = width * height) := by
  have hinit : ∀ a : List Bool, (a.length : Int) = width * height →
      ∃ area pos' rounds,
        World.init draws fuel ⟨a, width, height⟩ k pos 0 = .finished ⟨area, width, height⟩ pos' rounds ∧
        rounds ≤ k.toNat ∧ area.length = a.length := by
    intro a ha
    obtain ⟨area, pos', r, hrun, hl, hr, _⟩ :=
      init_run draws ((liveCount a : Int) + max k 0) fuel ⟨a, width, height⟩ k pos 0 hw hh ha
        hfuel (by simp only; omega) (by simp only; omega)
    exact ⟨area, pos', r, hrun, by omega, hl⟩
  refine ⟨hinit, fun _ => ?_⟩
  have hN : ¬ width * height < 0 := by nlinarith
  obtain ⟨area, pos', r, hrun, hr, hl⟩ := hinit (List.replicate (width * height).toNat false)
    (by simp; nlinarith)
  refine ⟨area, pos', r, ?_, hr, ?_⟩
  · unfold NewWorld make
    rw [if_neg hN]
    exact hrun
  · rw [hl]; simp; nlinarith

/-- Witness of C4 on the 2x1 grid with `k = 2` and the constant random source. -/
theorem init_stops_within_k_rounds_witness :
    (2 : Int) * 1 < 2 ^ 63 ∧
    ∃ area pos' rounds,
      NewWorld (fun _ => 0) 2 2 1 2 0 = .finished ⟨area, 2, 1⟩ pos' rounds ∧
      rounds ≤ (2 : Int).toNat ∧ (area.length : Int) = 2 * 1 :=
  ⟨by norm_num,
    (init_stops_within_k_rounds (fun _ => 0) 2 1 2 0 2 (by decide) (by decide) (by decide)).2
      (by norm_num)⟩

end Life

theorem pixStore_eq (pix : List Nat) (j : Nat) (v : Nat) :
    pixStore pix (j : Int) v = if j < pix.length then .ok (pix.set j v) else .error pix := by
  unfold pixStore store
  rw [if_neg (by omega), Int.toNat_ofNat]
  split_ifs <;> rfl

theorem pixLoad_eq (pix : List Nat) (j : Nat) :
    pixLoad pix (j : Int) = if j < pix.length then .ok (pix.getD j 0) else .error pix := by
  unfold pixLoad index
  rw [if_neg (by omega), Int.toNat_ofNat]
  by_cases h : j < pix.length
  · simp [h, List.getElem?_eq_getElem h]
  · simp [h, List.getElem?_eq_none (not_lt.mp h)]

theorem pixel_index_cast (i : Nat) :
    (4 : Int) * (i : Int) = ((4 * i : Nat) : Int) ∧
    (4 : Int) * (i : Int) + 1 = ((4 * i + 1 : Nat) : Int) ∧
    (4 : Int) * (i : Int) + 2 = ((4 * i + 2 : Nat) : Int) ∧
    (4 : Int) * (i : Int) + 3 = ((4 * i + 3 : Nat) : Int) := by
  refine ⟨?_, ?_, ?_, ?_⟩ <;> push_cast <;> rfl

namespace Life

theorem alpha_code_eq (v : Bool) (a : Nat) :
    (if v then ((a <<< 1) % 256 + 1) % 256 else a >>> 1) = alphaStep v a := by
  unfold alphaStep
  cases v
  · simp [Nat.shiftRight_eq_div_pow]
  · simp only [if_true, Nat.shiftLeft_eq]
    omega

theorem getD_set_ne (pix : List Nat) (j k v : Nat) (h : j ≠ k) :
    (pix.set j v).getD k 0 = pix.getD k 0 := by
  simp [List.getD_eq_getElem?_getD, List.getElem?_set, h]

theorem drawCell_ok (v : Bool) (i : Nat) (pix : List Nat) (h : 4 * i + 3 < pix.length) :
    drawCell v (i : Int) pix =
      .ok ((((pix.set (4 * i) (colourByte v)).set (4 * i + 1) (colourByte v)).set (4 * i + 2)
        (colourByte v)).set (4 * i + 3) (alphaStep v (pix.getD (4 * i + 3) 0))) := by
  obtain ⟨e0, e1, e2, e3⟩ := pixel_index_cast i
  have h0 : 4 * i < pix.length := by omega
  have h1 : 4 * i + 1 < pix.length := by omega
  have h2 : 4 * i + 2 < pix.length := by omega
  unfold drawCell
  rw [e3, e2, e1, e0, ← alpha_code_eq]
  cases v <;>
    simp only [pixStore_eq, pixLoad_eq, List.length_set, h, h0, h1, h2, if_true, ok_bind,
      colourByte, getD_set_ne pix (4 * i) (4 * i + 3) _ (by omega),
      getD_set_ne _ (4 * i + 1) (4 * i + 3) _ (by omega),
      getD_set_ne _ (4 * i + 2) (4 * i + 3) _ (by omega)]
  rfl

end Life

theorem getD_set (pix : List Nat) (a j v : Nat) (ha : a < pix.length) :
    (pix.set a v).getD j 0 = if a = j then v else pix.getD j 0 := by
  by_cases h : a = j
  · subst h; simp [List.getD_eq_getElem?_getD, List.getElem?_set, ha]
  · simp [List.getD_eq_getElem?_getD, List.getElem?_set, h]

theorem index_getD {α : Type} (a : List α) (i : Nat) (d : α) (h : i < a.length) :
    index a (i : Int) = .ok (a.getD i d) := by
  apply index_of_getElem? _ _ _ (by omega)
  rw [Int.toNat_ofNat, List.getElem?_eq_getElem h]
  simp [List.getD_eq_getElem?_getD, List.getElem?_eq_getElem h]

namespace Life

theorem drawStep_ok (area : List Bool) (i : Nat) (pix : List Nat) (hi : i < area.length)
    (h : 4 * i + 3 < pix.length) :
    (match index area (i : Int) with
      | .ok v => drawCell v (i : Int) pix
      | .error _ => .error pix) =
      .ok ((((pix.set (4 * i) (colourByte (area.getD i false))).set (4 * i + 1)
        (colourByte (area.getD i false))).set (4 * i + 2) (colourByte (area.getD i false))).set
        (4 * i + 3) (alphaStep (area.getD i false) (pix.getD (4 * i + 3) 0))) := by
  simp only [index_getD area i false hi]
  exact drawCell_ok _ i pix h

theorem draw_loop (w : World) (pix : List Nat) (h : 4 * w.area.length ≤ pix.length) :
    ∃ p, World.Draw w pix = .ok p ∧ p.length = pix.length ∧
      ∀ j, p.getD j 0 = if j < 4 * w.area.length then drawnByte w.area pix j else pix.getD j 0 := by
  unfold World.Draw
  obtain ⟨p, hrun, hl, hp⟩ := forRange_inv (w.area.length : Int)
    (fun i pix => match index w.area i with
      | .ok v => drawCell v i pix
      | .error _ => .error pix)
    (fun k p => p.length = pix.length ∧
      ∀ j, p.getD j 0 = if j < 4 * k then drawnByte w.area pix j else pix.getD j 0)
    pix ⟨rfl, fun j => by simp⟩ (by
      rintro i p hi ⟨hl, hp⟩
      have hi' : i < w.area.length := by omega
      have h3 : 4 * i + 3 < p.length := by omega
      refine ⟨_, drawStep_ok w.area i p hi' h3, by simp [hl], ?_⟩
      intro j
      rw [getD_set _ _ _ _ (by simpa using h3), getD_set _ _ _ _ (by simp; omega),
        getD_set _ _ _ _ (by simp; omega), getD_set _ _ _ _ (by omega), hp j, hp (4 * i + 3)]
      have hdiv : ∀ c, c < 4 → (4 * i + c) / 4 = i := fun c hc => by omega
      by_cases e3 : 4 * i + 3 = j
      · subst e3
        rw [if_pos rfl, if_neg (by omega), if_pos (by omega)]
        unfold drawnByte
        rw [if_pos (by omega), hdiv 3 (by omega)]
      · by_cases e2 : 4 * i + 2 = j
        · subst e2
          rw [if_neg e3, if_pos rfl, if_pos (by omega)]
          unfold drawnByte
          rw [if_neg (by omega), hdiv 2 (by omega)]
        · by_cases e1 : 4 * i + 1 = j
          · subst e1
            rw [if_neg e3, if_neg e2, if_pos rfl, if_pos (by omega)]
            unfold drawnByte
            rw [if_neg (by omega), hdiv 1 (by omega)]
          · by_cases e0 : 4 * i = j
            · subst e0
              rw [if_neg e3, if_neg e2, if_neg e1, if_pos rfl, if_pos (by omega)]
              unfold drawnByte
              rw [if_neg (by omega), (by omega : 4 * i / 4 = i)]
            · rw [if_neg e3, if_neg e2, if_neg e1, if_neg e0]
              by_cases hj : j < 4 * i
              · rw [if_pos hj, if_pos (by omega)]
              · rw [if_neg hj, if_neg (by omega)])
  refine ⟨p, hrun, hl, fun j => ?_⟩
  rw [hp j, Int.toNat_ofNat]

end Life

theorem getElem?_eq_some_getD (pix : List Nat) (j : Nat) (h : j < pix.length) :
    pix[j]? = some (pix.getD j 0) := by
  simp [List.getD_eq_getElem?_getD, List.getElem?_eq_getElem h]

namespace Life

theorem draw_pixel (w : World) (pix p : List Nat) (i : Nat) (hi : i < w.area.length)
    (h : 4 * w.area.length ≤ pix.length) (hl : p.length = pix.length)
    (hp : ∀ j, p.getD j 0 =
      if j < 4 * w.area.length then drawnByte w.area pix j else pix.getD j 0) :
    p[4 * i]? = some (colourByte (w.area.getD i false)) ∧
    p[4 * i + 1]? = some (colourByte (w.area.getD i false)) ∧
    p[4 * i + 2]? = some (colourByte (w.area.getD i false)) ∧
    p[4 * i + 3]? = some (alphaStep (w.area.getD i false) (pix.getD (4 * i + 3) 0)) := by
  have hdiv : ∀ c, c < 4 → (4 * i + c) / 4 = i := fun c hc => by omega
  refine ⟨?_, ?_, ?_, ?_⟩
  · rw [getElem?_eq_some_getD p _ (by omega), hp, if_pos (by omega)]
    unfold drawnByte
    rw [if_neg (by omega), (by omega : 4 * i / 4 = i)]
  · rw [getElem?_eq_some_getD p _ (by omega), hp, if_pos (by omega)]
    unfold drawnByte
    rw [if_neg (by omega), hdiv 1 (by omega)]
  · rw [getElem?_eq_some_getD p _ (by omega), hp, if_pos (by omega)]
    unfold drawnByte
    rw [if_neg (by omega), hdiv 2 (by omega)]
  · rw [getElem?_eq_some_getD p _ (by omega), hp, if_pos (by omega)]
    unfold drawnByte
    rw [if_pos (by omega), hdiv 3 (by omega)]

/-- C5: automaton `World.Draw` on a buffer with `len(pix) ≥ 4*len(area)` returns normally
with a buffer of the same length in which, for each cell index `i` and with `a` the value
`pix[4i+3]` held before the call, a live cell has bytes `0xff, 0xff, 0xff, (2*a+1) mod 256`
and a dead cell has bytes `0, 0, 0, floor(a/2)`; bytes from index `4*len(area)` on are kept.
A pixel's result depends on no other byte of the buffer: two buffers that agree on the alpha
byte of cell `i` get the same four bytes for cell `i`.  The world is only read: `Draw`
returns nothing but the buffer. -/
theorem draw_alpha_accumulator (w : World) (pix : List Nat)
    (h : 4 * w.area.length ≤ pix.length) :
    ∃ p, World.Draw w pix = .ok p ∧ p.length = pix.length ∧
      (∀ i, i < w.area.length → ∃ a, pix[4 * i + 3]? = some a ∧
        (w.area[i]? = some true →
          p[4 * i]? = some 0xff ∧ p[4 * i + 1]? = some 0xff ∧ p[4 * i + 2]? = some 0xff ∧
          p[4 * i + 3]? = some ((2 * a + 1) % 256)) ∧
        (w.area[i]? = some false →
          p[4 * i]? = some 0 ∧ p[4 * i + 1]? = some 0 ∧ p[4 * i + 2]? = some 0 ∧
          p[4 * i + 3]? = some (a / 2))) ∧
      (∀ j, 4 * w.area.length ≤ j → p[j]? = pix[j]?) ∧
      (∀ q : List Nat, 4 * w.area.length ≤ q.length →
        ∃ r, World.Draw w q = .ok r ∧
          ∀ i, i < w.area.length → q[4 * i + 3]? = pix[4 * i + 3]? →
            r[4 * i]? = p[4 * i]? ∧ r[4 * i + 1]? = p[4 * i + 1]? ∧
            r[4 * i + 2]? = p[4 * i + 2]? ∧ r[4 * i + 3]? = p[4 * i + 3]?) := by
  obtain ⟨p, hrun, hl, hp⟩ := draw_loop w pix h
  refine ⟨p, hrun, hl, ?_, ?_, ?_⟩
  · intro i hi
    obtain ⟨h0, h1, h2, h3⟩ := draw_pixel w pix p i hi h hl hp
    refine ⟨pix.getD (4 * i + 3) 0, getElem?_eq_some_getD pix _ (by omega), ?_, ?_⟩
    · intro hv
      have : w.area.getD i false = true := by simp [List.getD_eq_getElem?_getD, hv]
      rw [this] at h0 h1 h2 h3
      exact ⟨h0, h1, h2, h3⟩
    · intro hv
      have : w.area.getD i false = false := by simp [List.getD_eq_getElem?_getD, hv]
      rw [this] at h0 h1 h2 h3
      exact ⟨h0, h1, h2, h3⟩
  · intro j hj
    by_cases hjl : j < pix.length
    · rw [getElem?_eq_some_getD p j (by omega), getElem?_eq_some_getD pix j hjl, hp,
        if_neg (by omega)]
    · rw [List.getElem?_eq_none (by omega), List.getElem?_eq_none (by omega)]
  · intro q hq
    obtain ⟨r, hrun', hl', hr⟩ := draw_loop w q hq
    refine ⟨r, hrun', fun i hi hq3 => ?_⟩
    obtain ⟨h0, h1, h2, h3⟩ := draw_pixel w pix p i hi h hl hp
    obtain ⟨k0, k1, k2, k3⟩ := draw_pixel w q r i hi hq hl' hr
    have hqa : q.getD (4 * i + 3) 0 = pix.getD (4 * i + 3) 0 := by
      simp [List.getD_eq_getElem?_getD, hq3]
    rw [h0, h1, h2, h3, k0, k1, k2, k3, hqa]
    exact ⟨rfl, rfl, rfl, rfl⟩

/-- Witness of C5: a live and a dead cell painted into an eight-byte buffer. -/
theorem draw_alpha_accumulator_witness :
    4 * (World.mk [true, false] 2 1).area.length ≤ [0, 0, 0, 200, 9, 9, 9, 7].length ∧
    World.Draw ⟨[true, false], 2, 1⟩ [0, 0, 0, 200, 9, 9, 9, 7] =
      .ok [255, 255, 255, 145, 0, 0, 0, 3] ∧
    ∃ p, World.Draw ⟨[true, false], 2, 1⟩ [0, 0, 0, 200, 9, 9, 9, 7] = .ok p ∧
      p.length = [0, 0, 0, 200, 9, 9, 9, 7].length :=
  ⟨by decide, by decide,
    (draw_alpha_accumulator ⟨[true, false], 2, 1⟩ [0, 0, 0, 200, 9, 9, 9, 7] (by decide)).imp
      (fun _ hp => ⟨hp.1, hp.2.1⟩)⟩

end Life

theorem forRange_succ {ε σ : Type} (m : Nat) (body : Int → σ → Except ε σ) (s : σ) :
    forRange ((m + 1 : Nat) : Int) body s = forRange (m : Int) body s >>= body (m : Int) := by
  unfold forRange
  rw [Int.toNat_ofNat, Int.toNat_ofNat, List.range_succ, List.foldlM_append]
  congr 1
  funext t
  simp [List.foldlM_cons, List.foldlM_nil]
  cases body (m : Int) t <;> rfl

theorem forRange_ok_last {ε σ : Type} (m : Nat) (body : Int → σ → Except ε σ) (s s' : σ)
    (h : forRange ((m + 1 : Nat) : Int) body s = .ok s') :
    ∃ t, forRange (m : Int) body s = .ok t ∧ body (m : Int) t = .ok s' := by
  rw [forRange_succ] at h
  cases hrun : forRange (m : Int) body s with
  | error e => rw [hrun] at h; cases h
  | ok t => rw [hrun] at h; exact ⟨t, rfl, h⟩

theorem forRange_ok_inv {ε σ : Type} (I : σ → Prop) (body : Int → σ → Except ε σ)
    (hstep : ∀ (i : Int) (t t' : σ), I t → body i t = .ok t' → I t') (m : Nat) :
    ∀ (s s' : σ), I s → forRange (m : Int) body s = .ok s' → I s' := by
  induction m with
  | zero =>
    intro s s' h0 h
    cases h
    exact h0
  | succ m ih =>
    intro s s' h0 h
    obtain ⟨t, ht, hb⟩ := forRange_ok_last m body s s' h
    exact hstep _ t s' (ih s t h0 ht) hb

theorem bind_eq_ok {ε α β : Type} (x : Except ε α) (f : α → Except ε β) (b : β)
    (h : (x >>= f) = .ok b) : ∃ a, x = .ok a ∧ f a = .ok b := by
  cases x with
  | error e => cases h
  | ok a => exact ⟨a, rfl, h⟩

theorem pixStore_ok (pix p : List Nat) (j v : Nat) (h : pixStore pix (j : Int) v = .ok p) :
    j < pix.length ∧ p.length = pix.length := by
  rw [pixStore_eq] at h
  by_cases hj : j < pix.length
  · rw [if_pos hj] at h
    cases h
    exact ⟨hj, by simp⟩
  · rw [if_neg hj] at h
    cases h

namespace Life

theorem drawCell_ok_imp (v : Bool) (i : Nat) (pix p : List Nat)
    (h : drawCell v (i : Int) pix = .ok p) : 4 * i + 3 < pix.length ∧ p.length = pix.length := by
  obtain ⟨e0, e1, e2, e3⟩ := pixel_index_cast i
  unfold drawCell at h
  rw [e3, e2, e1, e0] at h
  cases v
  · simp only [Bool.false_eq_true, if_false] at h
    obtain ⟨p0, h0, h⟩ := bind_eq_ok _ _ _ h
    obtain ⟨p1, h1, h⟩ := bind_eq_ok _ _ _ h
    obtain ⟨p2, h2, h⟩ := bind_eq_ok _ _ _ h
    obtain ⟨a, _, h⟩ := bind_eq_ok _ _ _ h
    have l0 := pixStore_ok _ _ _ _ h0
    have l1 := pixStore_ok _ _ _ _ h1
    have l2 := pixStore_ok _ _ _ _ h2
    have l3 := pixStore_ok _ _ _ _ h
    omega
  · simp only [if_true] at h
    obtain ⟨p0, h0, h⟩ := bind_eq_ok _ _ _ h
    obtain ⟨p1, h1, h⟩ := bind_eq_ok _ _ _ h
    obtain ⟨p2, h2, h⟩ := bind_eq_ok _ _ _ h
    obtain ⟨a, _, h⟩ := bind_eq_ok _ _ _ h
    have l0 := pixStore_ok _ _ _ _ h0
    have l1 := pixStore_ok _ _ _ _ h1
    have l2 := pixStore_ok _ _ _ _ h2
    have l3 := pixStore_ok _ _ _ _ h
    omega

theorem draw_ok_imp (w : World) (pix p : List Nat) (h : World.Draw w pix = .ok p) :
    4 * w.area.length ≤ pix.length := by
  unfold World.Draw at h
  cases hn : w.area.length with
  | zero => omega
  | succ m =>
    rw [hn] at h
    obtain ⟨t, ht, hb⟩ := forRange_ok_last m _ pix p h
    have hstep : ∀ (i : Int) (t t' : List Nat), t.length = pix.length →
        (match index w.area i with
          | .ok v => drawCell v i t
          | .error _ => .error t) = .ok t' → t'.length = pix.length := by
      intro i t t' hl hb
      cases hidx : index w.area i with
      | error e => rw [hidx] at hb; cases hb
      | ok v =>
        rw [hidx] at hb
        have hi0 : 0 ≤ i := by
          unfold index at hidx
          by_contra hneg
          rw [if_pos (by omega)] at hidx
          cases hidx
        obtain ⟨k, rfl⟩ := Int.eq_ofNat_of_zero_le hi0
        exact (drawCell_ok_imp v k t t' hb).2.trans hl
    have hl := forRange_ok_inv (fun t => t.length = pix.length) _ hstep m pix t rfl ht
    cases hidx : index w.area (m : Int) with
    | error e => rw [hidx] at hb; cases hb
    | ok v =>
      rw [hidx] at hb
      have := (drawCell_ok_imp v m t p hb).1
      omega

end Life
namespace Fractal

theorem frac_drawCell_ok (w : World) (i : Nat) (pix : List Nat) (hi : i < w.iterations.length)
    (hit : w.iterations.getD i 0 < maxIteration + 1) (h : 4 * i + 3 < pix.length) :
    drawCell w (i : Int) pix =
      .ok ((((pix.set (4 * i) (255 - paletteAt w.palette (w.iterations.getD i 0))).set (4 * i + 1)
        (255 - paletteAt w.palette (w.iterations.getD i 0))).set (4 * i + 2)
        (255 - paletteAt w.palette (w.iterations.getD i 0))).set (4 * i + 3) 0xff) := by
  obtain ⟨e0, e1, e2, e3⟩ := pixel_index_cast i
  have h0 : 4 * i < pix.length := by omega
  have h1 : 4 * i + 1 < pix.length := by omega
  have h2 : 4 * i + 2 < pix.length := by omega
  unfold drawCell
  rw [e3, e2, e1, e0]
  simp only [index_getD w.iterations i 0 hi, dif_pos hit, paletteAt, pixStore_eq,
    List.length_set, h, h0, h1, h2, if_true, ok_bind]

theorem frac_drawCell_ok_imp (w : World) (i : Nat) (pix p : List Nat)
    (h : drawCell w (i : Int) pix = .ok p) : 4 * i + 3 < pix.length ∧ p.length = pix.length := by
  obtain ⟨e0, e1, e2, e3⟩ := pixel_index_cast i
  unfold drawCell at h
  rw [e3, e2, e1, e0] at h
  cases hidx : index w.iterations (i : Int) with
  | error e => rw [hidx] at h; cases h
  | ok it =>
    rw [hidx] at h
    simp only at h
    by_cases hit : it < maxIteration + 1
    · rw [dif_pos hit] at h
      obtain ⟨p0, h0, h⟩ := bind_eq_ok _ _ _ h
      obtain ⟨p1, h1, h⟩ := bind_eq_ok _ _ _ h
      obtain ⟨p2, h2, h⟩ := bind_eq_ok _ _ _ h
      have l0 := pixStore_ok _ _ _ _ h0
      have l1 := pixStore_ok _ _ _ _ h1
      have l2 := pixStore_ok _ _ _ _ h2
      have l3 := pixStore_ok _ _ _ _ h
      omega
    · rw [dif_neg hit] at h
      cases h

theorem frac_draw_loop (w : World) (pix : List Nat) (hit : ∀ v ∈ w.iterations, v ≤ maxIteration)
    (h : 4 * w.iterations.length ≤ pix.length) :
    ∃ p, World.Draw w pix = .ok p ∧ p.length = pix.length ∧
      ∀ j, p.getD j 0 = if j < 4 * w.iterations.length then drawnByte w j else pix.getD j 0 := by
  unfold World.Draw
  obtain ⟨p, hrun, hl, hp⟩ := forRange_inv (w.iterations.length : Int)
    (fun i pix => drawCell w i pix)
    (fun k p => p.length = pix.length ∧
      ∀ j, p.getD j 0 = if j < 4 * k then drawnByte w j else pix.getD j 0)
    pix ⟨rfl, fun j => by simp⟩ (by
      rintro i p hi ⟨hl, hp⟩
      have hi' : i < w.iterations.length := by omega
      have h3 : 4 * i + 3 < p.length := by omega
      have hv : w.iterations.getD i 0 < maxIteration + 1 := by
        have := hit (w.iterations.getD i 0) (by
          rw [List.getD_eq_getElem _ _ hi']; exact List.getElem_mem _)
        omega
      refine ⟨_, frac_drawCell_ok w i p hi' hv h3, by simp [hl], ?_⟩
      intro j
      rw [getD_set _ _ _ _ (by simpa using h3), getD_set _ _ _ _ (by simp; omega),
        getD_set _ _ _ _ (by simp; omega), getD_set _ _ _ _ (by omega), hp j]
      have hdiv : ∀ c, c < 4 → (4 * i + c) / 4 = i := fun c hc => by omega
      by_cases e3 : 4 * i + 3 = j
      · subst e3
        rw [if_pos rfl, if_pos (by omega)]
        unfold drawnByte
        rw [if_pos (by omega)]
      · by_cases e2 : 4 * i + 2 = j
        · subst e2
          rw [if_neg e3, if_pos rfl, if_pos (by omega)]
          unfold drawnByte
          rw [if_neg (by omega), hdiv 2 (by omega)]
        · by_cases e1 : 4 * i + 1 = j
          · subst e1
            rw [if_neg e3, if_neg e2, if_pos rfl, if_pos (by omega)]
            unfold drawnByte
            rw [if_neg (by omega), hdiv 1 (by omega)]
          · by_cases e0 : 4 * i = j
            · subst e0
              rw [if_neg e3, if_neg e2, if_neg e1, if_pos rfl, if_pos (by omega)]
              unfold drawnByte
              rw [if_neg (by omega), (by omega : 4 * i / 4 = i)]
            · rw [if_neg e3, if_neg e2, if_neg e1, if_neg e0]
              by_cases hj : j < 4 * i
              · rw [if_pos hj, if_pos (by omega)]
              · rw [if_neg hj, if_neg (by omega)])
  refine ⟨p, hrun, hl, fun j => ?_⟩
  rw [hp j, Int.toNat_ofNat]

theorem frac_draw_ok_imp (w : World) (pix p : List Nat) (h : World.Draw w pix = .ok p) :
    4 * w.iterations.length ≤ pix.length := by
  unfold World.Draw at h
  cases hn : w.iterations.length with
  | zero => omega
  | succ m =>
    rw [hn] at h
    obtain ⟨t, ht, hb⟩ := forRange_ok_last m _ pix p h
    have hstep : ∀ (i : Int) (t t' : List Nat), t.length = pix.length →
        drawCell w i t = .ok t' → t'.length = pix.length := by
      intro i t t' hl hb
      have hi0 : 0 ≤ i := by
        by_contra hneg
        unfold drawCell index at hb
        rw [if_pos (by omega)] at hb
        cases hb
      obtain ⟨k, rfl⟩ := Int.eq_ofNat_of_zero_le hi0
      exact (frac_drawCell_ok_imp w k t t' hb).2.trans hl
    have hl := forRange_ok_inv (fun t => t.length = pix.length) _ hstep m pix t rfl ht
    have := (frac_drawCell_ok_imp w m t p hb).1
    omega

end Fractal

/-- C6 (counterexample): neither `Draw` rejects a wrongly sized buffer.  On a 1x1 world
(`width*height*4 = 4`) a buffer of 5 bytes is accepted by both programs and painted, and a
buffer of 3 bytes makes both panic with an index out of range after the three colour bytes
have been written, so the buffer is not left unchanged. -/
theorem draw_does_not_check_buffer_size :
    ([0, 0, 0, 0, 7] : List Nat).length ≠ 1 * 1 * 4 ∧
    Life.World.Draw ⟨[true], 1, 1⟩ [0, 0, 0, 0, 7] = .ok [255, 255, 255, 1, 7] ∧
    Fractal.World.Draw ⟨[0], 1, 1, -2, 1, -1, 1, fun _ => 0⟩ [0, 0, 0, 0, 7] =
      .ok [255, 255, 255, 255, 7] ∧
    ([0, 0, 0] : List Nat).length ≠ 1 * 1 * 4 ∧
    Life.World.Draw ⟨[true], 1, 1⟩ [0, 0, 0] = .error [255, 255, 255] ∧
    Fractal.World.Draw ⟨[0], 1, 1, -2, 1, -1, 1, fun _ => 0⟩ [0, 0, 0] =
      .error [255, 255, 255] := by
  refine ⟨by decide, by decide, by decide, by decide, by decide, by decide⟩

/-- C6 (amended): `Draw` has no buffer-size check.  For an automaton world with
`len(area) = width*height`, and for a fractal world with `len(iterations) = width*height`
and iteration counts `≤ maxIteration`, `Draw` returns normally if and only if
`len(buffer) ≥ width*height*4`; on a longer buffer it keeps the bytes from index
`width*height*4` on, and on a shorter buffer it stops with an index-out-of-range panic. -/
theorem draw_succeeds_iff_buffer_holds_grid (lw : Life.World) (fw : Fractal.World)
    (pix : List Nat) (hl : (lw.area.length : Int) = lw.width * lw.height)
    (hf : (fw.iterations.length : Int) = fw.width * fw.height)
    (hit : ∀ v ∈ fw.iterations, v ≤ Fractal.maxIteration) :
    ((∃ p, Life.World.Draw lw pix = .ok p) ↔ lw.width * lw.height * 4 ≤ (pix.length : Int)) ∧
    ((∃ p, Fractal.World.Draw fw pix = .ok p) ↔ fw.width * fw.height * 4 ≤ (pix.length : Int)) ∧
    (∀ p, Life.World.Draw lw pix = .ok p →
      p.length = pix.length ∧ ∀ j : Nat, lw.width * lw.height * 4 ≤ (j : Int) → p[j]? = pix[j]?) ∧
    (∀ p, Fractal.World.Draw fw pix = .ok p →
      p.length = pix.length ∧ ∀ j : Nat, fw.width * fw.height * 4 ≤ (j : Int) → p[j]? = pix[j]?) ∧
    ((pix.length : Int) < lw.width * lw.height * 4 → ∃ q, Life.World.Draw lw pix = .error q) ∧
    ((pix.length : Int) < fw.width * fw.height * 4 →
      ∃ q, Fractal.World.Draw fw pix = .error q) := by
  have hL : (∃ p, Life.World.Draw lw pix = .ok p) ↔ lw.width * lw.height * 4 ≤ (pix.length : Int) := by
    constructor
    · rintro ⟨p, hp⟩
      have := Life.draw_ok_imp lw pix p hp
      omega
    · intro h
      obtain ⟨p, hp, _⟩ := Life.draw_loop lw pix (by omega)
      exact ⟨p, hp⟩
  have hF : (∃ p, Fractal.World.Draw fw pix = .ok p) ↔
      fw.width * fw.height * 4 ≤ (pix.length : Int) := by
    constructor
    · rintro ⟨p, hp⟩
      have := Fractal.frac_draw_ok_imp fw pix p hp
      omega
    · intro h
      obtain ⟨p, hp, _⟩ := Fractal.frac_draw_loop fw pix hit (by omega)
      exact ⟨p, hp⟩
  refine ⟨hL, hF, ?_, ?_, ?_, ?_⟩
  · intro p hp
    have hlen := Life.draw_ok_imp lw pix p hp
    obtain ⟨p', hp', hl', hbytes⟩ := Life.draw_loop lw pix hlen
    rw [hp] at hp'
    cases hp'
    refine ⟨hl', fun j hj => ?_⟩
    by_cases hjl : j < pix.length
    · rw [getElem?_eq_some_getD p j (by omega), getElem?_eq_some_getD pix j hjl, hbytes,
        if_neg (by omega)]
    · rw [List.getElem?_eq_none (by omega), List.getElem?_eq_none (by omega)]
  · intro p hp
    have hlen := Fractal.frac_draw_ok_imp fw pix p hp
    obtain ⟨p', hp', hl', hbytes⟩ := Fractal.frac_draw_loop fw pix hit hlen
    rw [hp] at hp'
    cases hp'
    refine ⟨hl', fun j hj => ?_⟩
    by_cases hjl : j < pix.length
    · rw [getElem?_eq_some_getD p j (by omega), getElem?_eq_some_getD pix j hjl, hbytes,
        if_neg (by omega)]
    · rw [List.getElem?_eq_none (by omega), List.getElem?_eq_none (by omega)]
  · intro h
    cases hd : Life.World.Draw lw pix with
    | error q => exact ⟨q, rfl⟩
    | ok p => exact absurd (hL.mp ⟨p, hd⟩) (by omega)
  · intro h
    cases hd : Fractal.World.Draw fw pix with
    | error q => exact ⟨q, rfl⟩
    | ok p => exact absurd (hF.mp ⟨p, hd⟩) (by omega)

/-- Witness of the amended C6: 1x1 worlds and a buffer of five bytes. -/
theorem draw_succeeds_iff_buffer_holds_grid_witness :
    ((∃ p, Life.World.Draw ⟨[true], 1, 1⟩ [0, 0, 0, 0, 7] = .ok p) ↔
      (1 : Int) * 1 * 4 ≤ (([0, 0, 0, 0, 7] : List Nat).length : Int)) ∧
    ((∃ p, Fractal.World.Draw ⟨[0], 1, 1, -2, 1, -1, 1, fun _ => 0⟩ [0, 0, 0, 0, 7] = .ok p) ↔
      (1 : Int) * 1 * 4 ≤ (([0, 0, 0, 0, 7] : List Nat).length : Int)) :=
  have h := draw_succeeds_iff_buffer_holds_grid ⟨[true], 1, 1⟩
    ⟨[0], 1, 1, -2, 1, -1, 1, fun _ => 0⟩ [0, 0, 0, 0, 7] (by decide) (by decide) (by decide)
  ⟨h.1, h.2.1⟩

namespace Fractal

theorem frac_draw_pixel (w : World) (pix p : List Nat) (i : Nat) (hi : i < w.iterations.length)
    (h : 4 * w.iterations.length ≤ pix.length) (hl : p.length = pix.length)
    (hp : ∀ j, p.getD j 0 =
      if j < 4 * w.iterations.length then drawnByte w j else pix.getD j 0) :
    p[4 * i]? = some (255 - paletteAt w.palette (w.iterations.getD i 0)) ∧
    p[4 * i + 1]? = some (255 - paletteAt w.palette (w.iterations.getD i 0)) ∧
    p[4 * i + 2]? = some (255 - paletteAt w.palette (w.iterations.getD i 0)) ∧
    p[4 * i + 3]? = some 0xff := by
  have hdiv : ∀ c, c < 4 → (4 * i + c) / 4 = i := fun c hc => by omega
  refine ⟨?_, ?_, ?_, ?_⟩
  · rw [getElem?_eq_some_getD p _ (by omega), hp, if_pos (by omega)]
    unfold drawnByte
    rw [if_neg (by omega), (by omega : 4 * i / 4 = i)]
  · rw [getElem?_eq_some_getD p _ (by omega), hp, if_pos (by omega)]
    unfold drawnByte
    rw [if_neg (by omega), hdiv 1 (by omega)]
  · rw [getElem?_eq_some_getD p _ (by omega), hp, if_pos (by omega)]
    unfold drawnByte
    rw [if_neg (by omega), hdiv 2 (by omega)]
  · rw [getElem?_eq_some_getD p _ (by omega), hp, if_pos (by omega)]
    unfold drawnByte
    rw [if_pos (by omega)]

/-- C10: fractal `World.Draw`, for a world with `len(iterations) = width*height` whose
iteration counts are `≤ maxIteration` and a buffer with `len(pix) = width*height*4`, returns
normally with a buffer of that length in which, for each cell `i`,
`pix[4i] = pix[4i+1] = pix[4i+2] = 255 - palette[iterations[i]]` and `pix[4i+3] = 0xff`; all
`width*height*4` bytes are written, and the result is the same for any other buffer of that
length: it does not depend on the previous contents. -/
theorem draw_writes_palette_colour (w : World) (pix : List Nat)
    (hlen : (w.iterations.length : Int) = w.width * w.height)
    (hit : ∀ v ∈ w.iterations, v ≤ maxIteration)
    (hpix : (pix.length : Int) = w.width * w.height * 4) :
    ∃ p, World.Draw w pix = .ok p ∧ (p.length : Int) = w.width * w.height * 4 ∧
      (∀ i, i < w.iterations.length →
        ∃ (it : Nat) (hidx : it < maxIteration + 1), w.iterations[i]? = some it ∧
          p[4 * i]? = some (255 - w.palette ⟨it, hidx⟩) ∧
          p[4 * i + 1]? = some (255 - w.palette ⟨it, hidx⟩) ∧
          p[4 * i + 2]? = some (255 - w.palette ⟨it, hidx⟩) ∧
          p[4 * i + 3]? = some 0xff) ∧
      (∀ j, j < p.length → ∃ i, i < w.iterations.length ∧ 4 * i ≤ j ∧ j < 4 * i + 4) ∧
      (∀ q : List Nat, q.length = pix.length → World.Draw w q = .ok p) := by
  have h4 : 4 * w.iterations.length = pix.length := by omega
  obtain ⟨p, hrun, hl, hp⟩ := frac_draw_loop w pix hit (by omega)
  refine ⟨p, hrun, by omega, ?_, ?_, ?_⟩
  · intro i hi
    have hmem : w.iterations.getD i 0 ∈ w.iterations := by
      rw [List.getD_eq_getElem _ _ hi]; exact List.getElem_mem _
    have hidx : w.iterations.getD i 0 < maxIteration + 1 := by
      have := hit _ hmem
      omega
    obtain ⟨h0, h1, h2, h3⟩ := frac_draw_pixel w pix p i hi (by omega) hl hp
    refine ⟨w.iterations.getD i 0, hidx, ?_, ?_⟩
    · rw [List.getElem?_eq_getElem hi, List.getD_eq_getElem _ _ hi]
    · simp only [paletteAt, dif_pos hidx] at h0 h1 h2
      exact ⟨h0, h1, h2, h3⟩
  · intro j hj
    exact ⟨j / 4, by omega, by omega, by omega⟩
  · intro q hq
    obtain ⟨r, hrun', hl', hr⟩ := frac_draw_loop w q hit (by omega)
    rw [hrun']
    congr 1
    apply List.ext_getElem (by omega)
    intro j hj1 hj2
    have e1 := hr j
    have e2 := hp j
    rw [if_pos (by omega), List.getD_eq_getElem _ _ hj1] at e1
    rw [if_pos (by omega), List.getD_eq_getElem _ _ hj2] at e2
    rw [e1, e2]

/-- Witness of C10: a 1x1 world with iteration count 30 and a palette with `palette[30] = 250`. -/
theorem draw_writes_palette_colour_witness :
    World.Draw ⟨[30], 1, 1, -2, 1, -1, 1, fun i => if i.val = 30 then 250 else 0⟩ [1, 2, 3, 4] =
      .ok [5, 5, 5, 255] ∧
    ∃ p, World.Draw ⟨[30], 1, 1, -2, 1, -1, 1, fun i => if i.val = 30 then 250 else 0⟩
        [1, 2, 3, 4] = .ok p ∧ (p.length : Int) = 1 * 1 * 4 :=
  ⟨by decide,
    (draw_writes_palette_colour ⟨[30], 1, 1, -2, 1, -1, 1, fun i => if i.val = 30 then 250 else 0⟩
      [1, 2, 3, 4] (by decide) (by decide) (by decide)).imp (fun _ hp => ⟨hp.1, hp.2.1⟩)⟩

theorem toUint_gt_four (ovf : ℚ → Nat) (q : ℚ) (h : q < 2 ^ 64) :
    4 < toUint ovf q ↔ 5 ≤ q := by
  unfold toUint
  rw [if_pos h]
  have key : (5 : Int) ≤ Rat.floor q ↔ ((5 : Int) : ℚ) ≤ q := Rat.le_floor
  have cast5 : ((5 : Int) : ℚ) = 5 := by norm_num
  rw [cast5] at key
  rw [← key]
  omega

theorem cms_gt_four (ovf : ℚ → Nat) (z : Complex128) (h : normSq z < 2 ^ 64) :
    4 < complexModulusSquared ovf z ↔ 5 ≤ normSq z :=
  toUint_gt_four ovf _ h

theorem mandelbrotLoop_eq (ovf : ℚ → Nat) (c : Complex128) (d : Nat) :
    ∀ n, n + d = maxIteration →
      (∀ k, k < n → ¬ (4 < complexModulusSquared ovf (orbit c k) ∨ k = maxIteration)) →
      mandelbrotLoop ovf c (orbit c n) n = truncatedEscapeTime ovf c := by
  induction d with
  | zero =>
    intro n hn hbelow
    rw [mandelbrotLoop, if_neg (by omega)]
    exact ((Nat.find_eq_iff _).mpr ⟨Or.inr (by omega), hbelow⟩).symm
  | succ d ih =>
    intro n hn hbelow
    rw [mandelbrotLoop]
    by_cases hg : complexModulusSquared ovf (orbit c n) ≤ 4
    · have hmod : (n + 1) % 256 = n + 1 := Nat.mod_eq_of_lt (by simp only [maxIteration] at hn; omega)
      rw [if_pos ⟨hg, by omega⟩, hmod]
      apply ih (n + 1) (by omega)
      intro k hk
      by_cases hkn : k = n
      · subst hkn
        rintro (h | h) <;> omega
      · exact hbelow k (by omega)
    · rw [if_neg (fun h => hg h.1)]
      exact ((Nat.find_eq_iff _).mpr ⟨Or.inl (by omega), hbelow⟩).symm

theorem mandelbrot_eq (ovf : ℚ → Nat) (c : Complex128) :
    mandelbrot ovf c = truncatedEscapeTime ovf c :=
  mandelbrotLoop_eq ovf c maxIteration 0 (by simp) (fun k hk => absurd hk (by omega))

theorem normSq_step_le (z c : Complex128) :
    normSq ((z.mul z).add c) ≤ 2 * normSq z ^ 2 + 2 * normSq c := by
  unfold normSq Complex128.add Complex128.mul
  simp only
  nlinarith [sq_nonneg (z.re * z.re - z.im * z.im - c.re), sq_nonneg (z.re * z.im + z.im * z.re - c.im)]

theorem normSq_nonneg (z : Complex128) : 0 ≤ normSq z := by
  unfold normSq
  nlinarith [sq_nonneg z.re, sq_nonneg z.im]

theorem truncated_eq_floor (ovf : ℚ → Nat) (c : Complex128) (hc : normSq c ≤ 2 ^ 62) :
    truncatedEscapeTime ovf c = floorEscapeTime c := by
  unfold truncatedEscapeTime
  rw [Nat.find_eq_iff]
  have hspec := Nat.find_spec
    (⟨maxIteration, Or.inr rfl⟩ : ∃ k, 5 ≤ normSq (orbit c k) ∨ k = maxIteration)
  have hmin : ∀ k, k < floorEscapeTime c → ¬ (5 ≤ normSq (orbit c k) ∨ k = maxIteration) :=
    fun k hk => Nat.find_min _ hk
  constructor
  · rcases hspec with h5 | h30
    · left
      have hsmall : normSq (orbit c (floorEscapeTime c)) < 2 ^ 64 := by
        cases hK : floorEscapeTime c with
        | zero =>
          simp only [orbit, normSq]
          norm_num
        | succ K =>
          have hK' : normSq (orbit c K) < 5 := by
            have := hmin K (by omega)
            push_neg at this
            exact this.1
          have h0 := normSq_nonneg (orbit c K)
          have hstep := normSq_step_le (orbit c K) c
          simp only [orbit]
          have hsq : normSq (orbit c K) ^ 2 < 25 := by nlinarith
          have : (2 : ℚ) * 25 + 2 * 2 ^ 62 < 2 ^ 64 := by norm_num
          linarith
      exact (cms_gt_four ovf _ hsmall).mpr h5
    · right
      exact h30
  · intro k hk
    have hk' := hmin k hk
    push_neg at hk'
    rintro (h | h)
    · have hsmall : normSq (orbit c k) < 2 ^ 64 := by
        have h5 : (5 : ℚ) < 2 ^ 64 := by norm_num
        linarith [hk'.1]
      have h5 := (cms_gt_four ovf _ hsmall).mp h
      linarith [hk'.1]
    · exact hk'.2 h

/-- C7 (counterexample): at `c = 2.1` the orbit is `z_0 = 0`, `z_1 = 2.1`, `z_2 = 6.51`.
The escape-time count of the specification is 1, because `|z_1|^2 = 4.41 > 4`, but
`mandelbrot` returns 2: the guard compares `uint(4.41) = 4` with 4 and the loop goes on. -/
theorem mandelbrot_differs_from_escape_time :
    mandelbrot (fun _ => 0) ⟨21 / 10, 0⟩ = 2 ∧ escapeTime ⟨21 / 10, 0⟩ = 1 ∧
    mandelbrot (fun _ => 0) ⟨21 / 10, 0⟩ ≠ escapeTime ⟨21 / 10, 0⟩ := by
  have h1 : mandelbrot (fun _ => 0) ⟨21 / 10, 0⟩ = 2 := by
    rw [mandelbrot_eq, truncated_eq_floor _ _ (by simp only [normSq]; norm_num)]
    unfold floorEscapeTime
    rw [Nat.find_eq_iff]
    constructor
    · left
      simp only [orbit, normSq, Complex128.mul, Complex128.add]
      norm_num
    · intro k hk
      interval_cases k
      · simp only [orbit, normSq, maxIteration]
        norm_num
      · simp only [orbit, normSq, Complex128.mul, Complex128.add, maxIteration]
        norm_num
  have h2 : escapeTime ⟨21 / 10, 0⟩ = 1 := by
    unfold escapeTime
    rw [Nat.find_eq_iff]
    constructor
    · left
      simp only [orbit, normSq, Complex128.mul, Complex128.add]
      norm_num
    · intro k hk
      interval_cases k
      simp only [orbit, normSq, maxIteration]
      norm_num
  exact ⟨h1, h2, by rw [h1, h2]; decide⟩

/-- C7 (amended): over exact arithmetic, with `z_0 = 0` and `z_{k+1} = z_k^2 + c`,
`mandelbrot(c)` is the least `k` such that `complexModulusSquared(z_k) > 4` or
`k = maxIteration`; for every `c` with `|c|^2 ≤ 2^62`, where the conversion to an unsigned
integer is the integer part, that is the least `k` such that `|z_k|^2 ≥ 5` or
`k = maxIteration`. -/
theorem mandelbrot_is_truncated_escape_time (ovf : ℚ → Nat) (c : Complex128) :
    mandelbrot ovf c = truncatedEscapeTime ovf c ∧
    (∀ k, k < mandelbrot ovf c →
      complexModulusSquared ovf (orbit c k) ≤ 4 ∧ k < maxIteration) ∧
    (4 < complexModulusSquared ovf (orbit c (mandelbrot ovf c)) ∨
      mandelbrot ovf c = maxIteration) ∧
    (∀ z, normSq z < 2 ^ 64 → (4 < complexModulusSquared ovf z ↔ 5 ≤ normSq z)) ∧
    (normSq c ≤ 2 ^ 62 →
      mandelbrot ovf c = floorEscapeTime c ∧
      (∀ k, k < mandelbrot ovf c → normSq (orbit c k) < 5 ∧ k < maxIteration) ∧
      (5 ≤ normSq (orbit c (mandelbrot ovf c)) ∨ mandelbrot ovf c = maxIteration)) := by
  have h1 := mandelbrot_eq ovf c
  have hle : mandelbrot ovf c ≤ maxIteration := by
    rw [h1]; exact Nat.find_min' _ (Or.inr rfl)
  refine ⟨h1, ?_, ?_, fun z hz => cms_gt_four ovf z hz, fun hc => ?_⟩
  · intro k hk
    have hk' := hk
    rw [h1] at hk'
    have := Nat.find_min (⟨maxIteration, Or.inr rfl⟩ :
      ∃ k, 4 < complexModulusSquared ovf (orbit c k) ∨ k = maxIteration) hk'
    push_neg at this
    exact ⟨this.1, by omega⟩
  · have := Nat.find_spec (⟨maxIteration, Or.inr rfl⟩ :
      ∃ k, 4 < complexModulusSquared ovf (orbit c k) ∨ k = maxIteration)
    rw [h1]
    exact this
  · have h2 := truncated_eq_floor ovf c hc
    refine ⟨h1.trans h2, ?_, ?_⟩
    · intro k hk
      have hk' := hk
      rw [h1, h2] at hk'
      have := Nat.find_min
        (⟨maxIteration, Or.inr rfl⟩ : ∃ k, 5 ≤ normSq (orbit c k) ∨ k = maxIteration) hk'
      push_neg at this
      exact ⟨this.1, by omega⟩
    · rw [h1, h2]
      exact Nat.find_spec
        (⟨maxIteration, Or.inr rfl⟩ : ∃ k, 5 ≤ normSq (orbit c k) ∨ k = maxIteration)

/-- Witness of the amended C7 at `c = 2.1`. -/
theorem mandelbrot_is_truncated_escape_time_witness :
    normSq ⟨21 / 10, 0⟩ ≤ 2 ^ 62 ∧
    mandelbrot (fun _ => 0) ⟨21 / 10, 0⟩ = floorEscapeTime ⟨21 / 10, 0⟩ :=
  ⟨by simp only [normSq]; norm_num,
    ((mandelbrot_is_truncated_escape_time (fun _ => 0) ⟨21 / 10, 0⟩).2.2.2.2
      (by simp only [normSq]; norm_num)).1⟩

theorem mandelbrot_le (ovf : ℚ → Nat) (c : Complex128) : mandelbrot ovf c ≤ maxIteration := by
  rw [mandelbrot_eq]
  exact Nat.find_min' _ (Or.inr rfl)

theorem mandelbrotLoop_le (ovf : ℚ → Nat) (c : Complex128) (d : Nat) :
    ∀ (z : Complex128) (n : Nat), n + d = maxIteration →
      mandelbrotLoop ovf c z n ≤ maxIteration := by
  induction d with
  | zero =>
    intro z n hn
    rw [mandelbrotLoop, if_neg (by omega)]
    omega
  | succ d ih =>
    intro z n hn
    rw [mandelbrotLoop]
    split_ifs with hg
    · have hmod : (n + 1) % 256 = n + 1 :=
        Nat.mod_eq_of_lt (by simp only [maxIteration] at hn; omega)
      rw [hmod]
      exact ih _ (n + 1) (by omega)
    · omega

theorem frac_update_loop (ovf : ℚ → Nat) (w : World) (hdim : 0 ≤ w.width * w.height) :
    ∃ next, forRange w.height (fun y next => forRange w.width
        (fun x next => updateCell ovf w w.width w.height y x next) next)
        (List.replicate (w.width * w.height).toNat 0) = .ok next ∧
      next.length = (w.width * w.height).toNat ∧
      ∀ j, j < next.length → next[j]? =
        some (if j < w.height.toNat * w.width.toNat then nextCell ovf w j else 0) := by
  obtain ⟨next, hrun, hl, hcells⟩ := forRange_nested_inv w.height w.width
    (fun y x next => updateCell ovf w w.width w.height y x next)
    (fun k next => next.length = (w.width * w.height).toNat ∧
      ∀ j, j < (w.width * w.height).toNat →
        next[j]? = some (if j < k then nextCell ovf w j else 0))
    (List.replicate (w.width * w.height).toNat 0) ⟨by simp, fun j hj => by simp [hj]⟩ (by
      rintro y x l hy hx ⟨hl, hcells⟩
      have hw : ((w.width.toNat : Nat) : Int) = w.width := Int.toNat_of_nonneg (by omega)
      have hh : ((w.height.toNat : Nat) : Int) = w.height := Int.toNat_of_nonneg (by omega)
      have hcast := Life.cell_index_cast w.width x y hx
      have hkN : y * w.width.toNat + x < (w.width * w.height).toNat := by
        have h1 : y * w.width.toNat + x < w.height.toNat * w.width.toNat := by nlinarith
        have h2 : ((w.height.toNat * w.width.toNat : Nat) : Int) = w.width * w.height := by
          push_cast; rw [hw, hh]; ring
        omega
      refine ⟨l.set (y * w.width.toNat + x)
        (mandelbrot ovf (cellCoordinate w x y)), ?_, by simp [hl], ?_⟩
      · unfold updateCell cellCoordinate
        simp only [Int.cast_natCast]
        rw [hcast, store_eq_ok l _ _ (by omega) (by omega), Int.toNat_ofNat]
      · intro j hj
        rw [List.getElem?_set]
        by_cases hjk : y * w.width.toNat + x = j
        · subst hjk
          rw [if_pos rfl, if_pos (by omega), if_pos (by omega)]
          unfold nextCell
          rw [(Life.cell_coords _ x y hx).1, (Life.cell_coords _ x y hx).2]
        · rw [if_neg hjk, hcells j hj]
          congr 1
          by_cases hlt : j < y * w.width.toNat + x
          · rw [if_pos hlt, if_pos (by omega)]
          · rw [if_neg hlt, if_neg (by omega)])
  exact ⟨next, hrun, hl, fun j hj => hcells j (by omega)⟩

theorem update_eq (ovf : ℚ → Nat) (w : World) (hdim : 0 ≤ w.width * w.height) :
    ∃ next, World.Update ovf w = .ok { w with iterations := next } ∧
      (next.length : Int) = w.width * w.height ∧
      (∀ j, j < next.length → next[j]? =
        some (if j < w.height.toNat * w.width.toNat then nextCell ovf w j else 0)) ∧
      ∀ v ∈ next, v ≤ maxIteration := by
  obtain ⟨next, hrun, hl, hcells⟩ := frac_update_loop ovf w hdim
  refine ⟨next, ?_, by omega, hcells, ?_⟩
  · unfold World.Update make
    simp only [if_neg (by omega : ¬ w.width * w.height < 0), ok_bind, hrun]
  · intro v hv
    obtain ⟨j, hj, rfl⟩ := List.mem_iff_getElem.mp hv
    have := hcells j hj
    rw [List.getElem?_eq_getElem hj, Option.some.injEq] at this
    rw [this]
    split_ifs
    · exact mandelbrot_le ovf _
    · exact Nat.zero_le _

theorem foldl_update_apply {n : Nat} (g : Fin n → Nat) (l : List (Fin n)) :
    ∀ (p : Fin n → Nat) (j : Fin n),
      (l.foldl (fun p i => Function.update p i (g i)) p) j = if j ∈ l then g j else p j := by
  induction l with
  | nil => intro p j; simp
  | cons a l ih =>
    intro p j
    rw [List.foldl_cons, ih]
    by_cases hj : j ∈ l
    · simp [hj]
    · by_cases hja : j = a
      · subst hja; simp [hj]
      · simp [hj, hja, Function.update_noteq hja]

theorem newWorld_eq (ovf : ℚ → Nat) (width height : Int) (hdim : 0 ≤ width * height) :
    NewWorld ovf width height = World.Update ovf
      { iterations := List.replicate (width * height).toNat 0, width := width, height := height,
        realMin := -2, realMax := 1, imagMin := -1, imagMax := 1,
        palette := fun i => paletteByte i.val (maxIteration + 1) } := by
  unfold NewWorld make
  simp only [if_neg (by omega : ¬ width * height < 0), ok_bind]
  congr 2
  funext j
  rw [foldl_update_apply (fun i => paletteByte i.val (maxIteration + 1))]
  simp [List.mem_finRange]

/-- C8: fractal cell values stay in `0..=maxIteration`.  For every `c`, `mandelbrot(c)` (a
total function: its loop ends) returns `n ≤ maxIteration = 30`, the number of loop steps
made, whatever the conversion to an unsigned integer yields; the loop started from any
value of `z` and any `n ≤ maxIteration` also returns at most `maxIteration`.  Hence
for every world with `0 ≤ width*height < 2^63` (the product is then the one the code
computes, and `make` does not panic) `Update` returns a world all of whose iteration
counts are `≤ maxIteration`, so does `NewWorld`, and in `Draw` on such a world every index
`iterations[i]` into the palette of `maxIteration + 1` entries is in range: `Draw` returns
normally on every buffer that holds the grid. -/
theorem iterations_stay_within_maxIteration (ovf : ℚ → Nat) (w : World)
    (hdim : 0 ≤ w.width * w.height) :
    (∀ c, mandelbrot ovf c ≤ maxIteration) ∧ maxIteration = 30 ∧
    (∀ (c z : Complex128) (n : Nat), n ≤ maxIteration →
      mandelbrotLoop ovf c z n ≤ maxIteration) ∧
    (w.width * w.height < 2 ^ 63 →
      ∃ next, World.Update ovf w = .ok { w with iterations := next } ∧
      (next.length : Int) = w.width * w.height ∧
      (∀ v ∈ next, v ≤ maxIteration ∧ v < maxIteration + 1) ∧
      ∀ pix : List Nat, 4 * next.length ≤ pix.length →
        ∃ p, World.Draw { w with iterations := next } pix = .ok p) ∧
    (w.width * w.height < 2 ^ 63 →
      ∃ w', NewWorld ovf w.width w.height = .ok w' ∧
      (w'.iterations.length : Int) = w.width * w.height ∧
      (∀ v ∈ w'.iterations, v ≤ maxIteration ∧ v < maxIteration + 1) ∧
      ∀ pix : List Nat, 4 * w'.iterations.length ≤ pix.length →
        ∃ p, World.Draw w' pix = .ok p) := by
  refine ⟨mandelbrot_le ovf, rfl,
    fun c z n hn => mandelbrotLoop_le ovf c (maxIteration - n) z n (by omega),
    fun _ => ?_, fun _ => ?_⟩
  · obtain ⟨next, hrun, hl, _, hle⟩ := update_eq ovf w hdim
    refine ⟨next, hrun, hl, fun v hv => ⟨hle v hv, Nat.lt_succ_of_le (hle v hv)⟩, fun pix hpix => ?_⟩
    obtain ⟨p, hp, _⟩ := frac_draw_loop { w with iterations := next } pix hle hpix
    exact ⟨p, hp⟩
  · rw [newWorld_eq ovf w.width w.height hdim]
    obtain ⟨next, hrun, hl, _, hle⟩ := update_eq ovf
      { iterations := List.replicate (w.width * w.height).toNat 0, width := w.width,
        height := w.height, realMin := -2, realMax := 1, imagMin := -1, imagMax := 1,
        palette := fun i => paletteByte i.val (maxIteration + 1) } hdim
    refine ⟨_, hrun, hl, fun v hv => ⟨hle v hv, Nat.lt_succ_of_le (hle v hv)⟩, fun pix hpix => ?_⟩
    obtain ⟨p, hp, _⟩ := frac_draw_loop _ pix hle hpix
    exact ⟨p, hp⟩

/-- Witness of C8 on a 2x1 world. -/
theorem iterations_stay_within_maxIteration_witness :
    (0 : Int) ≤ 2 * 1 ∧ (2 : Int) * 1 < 2 ^ 63 ∧
    (∀ c, mandelbrot (fun _ => 0) c ≤ maxIteration) ∧
    ∃ w', NewWorld (fun _ => 0) 2 1 = .ok w' ∧ (w'.iterations.length : Int) = 2 * 1 ∧
      ∀ v ∈ w'.iterations, v ≤ maxIteration ∧ v < maxIteration + 1 :=
  have h := iterations_stay_within_maxIteration (fun _ => 0)
    ⟨[0, 0], 2, 1, -2, 1, -1, 1, fun _ => 0⟩ (by decide)
  ⟨by decide, by norm_num, h.1,
    (h.2.2.2.2 (by norm_num)).imp (fun _ hw => ⟨hw.1, hw.2.1, hw.2.2.1⟩)⟩

theorem paletteByte_lt (i : Nat) (hi : i ≤ maxIteration) :
    Nat.sqrt (i * 0xff * 0xff / (maxIteration + 1)) < 256 := by
  rw [Nat.sqrt_lt']
  simp only [maxIteration] at *
  omega

theorem paletteByte_eq (i : Nat) (hi : i ≤ maxIteration) :
    paletteByte i (maxIteration + 1) = Nat.sqrt (i * 0xff * 0xff / (maxIteration + 1)) := by
  unfold paletteByte
  exact Nat.mod_eq_of_lt (paletteByte_lt i hi)

theorem paletteByte_mono (i j : Nat) (hij : i ≤ j) (hj : j ≤ maxIteration) :
    paletteByte i (maxIteration + 1) ≤ paletteByte j (maxIteration + 1) := by
  rw [paletteByte_eq i (by omega), paletteByte_eq j hj]
  apply Nat.sqrt_le_sqrt
  apply Nat.div_le_div_right
  nlinarith

theorem paletteByte_real (i : Nat) (hi : i ≤ maxIteration) :
    paletteByte i (maxIteration + 1) =
      ⌊Real.sqrt ((i : ℝ) / ((maxIteration + 1 : Nat) : ℝ)) * 0xff⌋₊ := by
  rw [paletteByte_eq i hi]
  symm
  have hnn : (0 : ℝ) ≤ (i : ℝ) / ((maxIteration + 1 : Nat) : ℝ) := by positivity
  have hmul : Real.sqrt ((i : ℝ) / ((maxIteration + 1 : Nat) : ℝ)) * 0xff =
      Real.sqrt ((i : ℝ) / ((maxIteration + 1 : Nat) : ℝ) * (0xff * 0xff)) := by
    rw [Real.sqrt_mul hnn, Real.sqrt_mul_self (by norm_num)]
  rw [hmul, Nat.floor_eq_iff (Real.sqrt_nonneg _)]
  set m := Nat.sqrt (i * 0xff * 0xff / (maxIteration + 1)) with hm
  have hlow : m * m ≤ i * 0xff * 0xff / (maxIteration + 1) := Nat.sqrt_le _
  have hhigh : i * 0xff * 0xff / (maxIteration + 1) < (m + 1) * (m + 1) := Nat.lt_succ_sqrt _
  have hlow' : m * m * (maxIteration + 1) ≤ i * 0xff * 0xff :=
    (Nat.le_div_iff_mul_le (by simp [maxIteration])).mp hlow
  have hhigh' : i * 0xff * 0xff < (m + 1) * (m + 1) * (maxIteration + 1) :=
    (Nat.div_lt_iff_lt_mul (by simp [maxIteration])).mp hhigh
  have hlowR : ((m * m * (maxIteration + 1) : Nat) : ℝ) ≤ ((i * 0xff * 0xff : Nat) : ℝ) :=
    Nat.cast_le.mpr hlow'
  have hhighR : ((i * 0xff * 0xff : Nat) : ℝ) < (((m + 1) * (m + 1) * (maxIteration + 1) : Nat) : ℝ) :=
    Nat.cast_lt.mpr hhigh'
  push_cast at hlowR hhighR
  have hpos : (0 : ℝ) < ((maxIteration : ℝ) + 1) := by positivity
  constructor
  · apply Real.le_sqrt_of_sq_le
    push_cast
    rw [div_mul_eq_mul_div, le_div_iff₀ hpos]
    nlinarith
  · rw [Real.sqrt_lt' (by positivity)]
    push_cast
    rw [div_mul_eq_mul_div, div_lt_iff₀ hpos]
    nlinarith

/-- C9: the palette built by `NewWorld` (for `width*height ≥ 0`, where `NewWorld` returns)
has exactly `maxIteration + 1 = 31` entries with `palette[i] = floor(sqrt(i / 31) * 255)`, a
byte; `palette[0] = 0` and `palette[i] ≤ palette[i+1]` for every `0 ≤ i < maxIteration`.
The square root is the real one: `float64` rounding is not modelled. -/
theorem palette_is_monotone_sqrt_ramp (ovf : ℚ → Nat) (width height : Int)
    (hdim : 0 ≤ width * height) :
    ∃ w, NewWorld ovf width height = .ok w ∧
      (List.ofFn w.palette).length = maxIteration + 1 ∧ maxIteration + 1 = 31 ∧
      (∀ i : Fin (maxIteration + 1),
        w.palette i = ⌊Real.sqrt ((i.val : ℝ) / 31) * 255⌋₊ ∧ w.palette i < 256) ∧
      w.palette 0 = 0 ∧
      (∀ (i : Nat) (h : i < maxIteration),
        w.palette ⟨i, by omega⟩ ≤ w.palette ⟨i + 1, by omega⟩) ∧
      ∀ i j : Fin (maxIteration + 1), i ≤ j → w.palette i ≤ w.palette j := by
  rw [newWorld_eq ovf width height hdim]
  obtain ⟨next, hrun, _⟩ := update_eq ovf
    { iterations := List.replicate (width * height).toNat 0, width := width,
      height := height, realMin := -2, realMax := 1, imagMin := -1, imagMax := 1,
      palette := fun i => paletteByte i.val (maxIteration + 1) } hdim
  refine ⟨_, hrun, List.length_ofFn _, rfl, ?_, ?_, ?_, ?_⟩
  · intro i
    have hi : i.val ≤ maxIteration := by omega
    refine ⟨?_, ?_⟩
    · have := paletteByte_real i.val hi
      simp only [maxIteration] at this ⊢
      rw [this]
      norm_num
    · show paletteByte i.val (maxIteration + 1) < 256
      rw [paletteByte_eq i.val hi]
      exact paletteByte_lt i.val hi
  · show paletteByte 0 (maxIteration + 1) = 0
    simp [paletteByte]
  · intro i h
    exact paletteByte_mono i (i + 1) (by omega) (by omega)
  · intro i j hij
    exact paletteByte_mono i.val j.val hij (by omega)

/-- Witness of C9 for the 2x1 world. -/
theorem palette_is_monotone_sqrt_ramp_witness :
    (0 : Int) ≤ 2 * 1 ∧
    ∃ w, NewWorld (fun _ => 0) 2 1 = .ok w ∧ (List.ofFn w.palette).length = maxIteration + 1 ∧
      maxIteration + 1 = 31 :=
  ⟨by decide,
    (palette_is_monotone_sqrt_ramp (fun _ => 0) 2 1 (by decide)).imp
      (fun _ hw => ⟨hw.1, hw.2.1, hw.2.2.1⟩)⟩

theorem nextCell_congr (ovf : ℚ → Nat) (v w : World) (j : Nat) (hw : v.width = w.width)
    (hh : v.height = w.height) (h1 : v.realMin = w.realMin) (h2 : v.realMax = w.realMax)
    (h3 : v.imagMin = w.imagMin) (h4 : v.imagMax = w.imagMax) :
    nextCell ovf v j = nextCell ovf w j := by
  unfold nextCell cellCoordinate
  rw [hw, hh, h1, h2, h3, h4]

/-- C11: fractal `World.Update` is a full recomputation.  For every world with
`0 ≤ width*height < 2^63` (below `0` `make` panics; below `2^63` the product and the
indices are the ones the code computes) `Update` returns the world with new iteration
counts and `width`, `height`, the four bounds and the palette unchanged; the cell at index
`y*width+x` (`0 ≤ x < width`, `0 ≤ y < height`) is `mandelbrot(re + im*i)` with
`re = realMin + (x/width)*(realMax-realMin)` and `im = imagMin + (y/height)*(imagMax-imagMin)`.
Every world that agrees on `width`, `height` and the four bounds gets the same iteration
counts whatever its previous ones were, so `Update` after `Update` changes nothing. -/
theorem update_is_full_recomputation (ovf : ℚ → Nat) (w : World)
    (hdim : 0 ≤ w.width * w.height) (_hbound : w.width * w.height < 2 ^ 63) :
    ∃ next, World.Update ovf w = .ok { w with iterations := next } ∧
      (next.length : Int) = w.width * w.height ∧
      (∀ x y : Nat, (x : Int) < w.width → (y : Int) < w.height →
        index next ((y : Int) * w.width + (x : Int)) = .ok (mandelbrot ovf
          ⟨w.realMin + ((x : ℚ) / (w.width : ℚ)) * (w.realMax - w.realMin),
           w.imagMin + ((y : ℚ) / (w.height : ℚ)) * (w.imagMax - w.imagMin)⟩)) ∧
      (∀ v : World, v.width = w.width → v.height = w.height → v.realMin = w.realMin →
        v.realMax = w.realMax → v.imagMin = w.imagMin → v.imagMax = w.imagMax →
        World.Update ovf v = .ok { v with iterations := next }) ∧
      World.Update ovf { w with iterations := next } = .ok { w with iterations := next } := by
  obtain ⟨next, hrun, hl, hcells, _⟩ := update_eq ovf w hdim
  have hagree : ∀ v : World, v.width = w.width → v.height = w.height → v.realMin = w.realMin →
      v.realMax = w.realMax → v.imagMin = w.imagMin → v.imagMax = w.imagMax →
      World.Update ovf v = .ok { v with iterations := next } := by
    intro v hw hh h1 h2 h3 h4
    obtain ⟨next', hrun', hl', hcells', _⟩ := update_eq ovf v (by rw [hw, hh]; exact hdim)
    have hlen : next'.length = next.length := by
      have hvw : v.width * v.height = w.width * w.height := by rw [hw, hh]
      omega
    have heq : next' = next := by
      apply List.ext_getElem?
      intro j
      by_cases hj : j < next.length
      · rw [hcells j hj, hcells' j (by omega), hw, hh,
          nextCell_congr ovf v w j hw hh h1 h2 h3 h4]
      · rw [List.getElem?_eq_none (by omega), List.getElem?_eq_none (by omega)]
    rw [hrun', heq]
  refine ⟨next, hrun, hl, ?_, hagree, ?_⟩
  · intro x y hx hy
    have hxW : x < w.width.toNat := by omega
    have hyH : y < w.height.toNat := by omega
    have hw : ((w.width.toNat : Nat) : Int) = w.width := Int.toNat_of_nonneg (by omega)
    have hh : ((w.height.toNat : Nat) : Int) = w.height := Int.toNat_of_nonneg (by omega)
    have hcast := Life.cell_index_cast w.width x y hxW
    have hk : y * w.width.toNat + x < w.height.toNat * w.width.toNat := by nlinarith
    have hkN : y * w.width.toNat + x < next.length := by
      have h2 : ((w.height.toNat * w.width.toNat : Nat) : Int) = (next.length : Int) := by
        push_cast; rw [hw, hh, hl]; ring
      omega
    rw [hcast]
    apply index_of_getElem? _ _ _ (by omega)
    rw [Int.toNat_ofNat, hcells _ hkN, if_pos hk]
    unfold nextCell cellCoordinate
    rw [(Life.cell_coords _ x y hxW).1, (Life.cell_coords _ x y hxW).2]
  · exact hagree { w with iterations := next } rfl rfl rfl rfl rfl rfl

/-- Witness of C11 on a 2x1 world with stale iteration counts. -/
theorem update_is_full_recomputation_witness :
    (0 : Int) ≤ 2 * 1 ∧ (2 : Int) * 1 < 2 ^ 63 ∧
    ∃ next, World.Update (fun _ => 0) ⟨[7, 9], 2, 1, -2, 1, -1, 1, fun _ => 0⟩ =
        .ok ⟨next, 2, 1, -2, 1, -1, 1, fun _ => 0⟩ ∧
      World.Update (fun _ => 0) ⟨next, 2, 1, -2, 1, -1, 1, fun _ => 0⟩ =
        .ok ⟨next, 2, 1, -2, 1, -1, 1, fun _ => 0⟩ :=
  ⟨by decide, by norm_num,
    (update_is_full_recomputation (fun _ => 0) ⟨[7, 9], 2, 1, -2, 1, -1, 1, fun _ => 0⟩
      (by decide) (by norm_num)).imp (fun _ h => ⟨h.1, h.2.2.2.2⟩)⟩

end Fractal

theorem forRange_toNat {ε σ : Type} (n : Int) (body : Int → σ → Except ε σ) (s : σ) :
    forRange n body s = forRange ((n.toNat : Nat) : Int) body s := by
  unfold forRange
  rw [Int.toNat_ofNat]

theorem forRange_first_error {ε σ : Type} (n : Int) (body : Int → σ → Except ε σ) (s : σ)
    (e : ε) (hn : 0 < n) (h : body 0 s = .error e) : forRange n body s = .error e := by
  unfold forRange
  obtain ⟨m, hm⟩ : ∃ m, n.toNat = m + 1 := ⟨n.toNat - 1, by omega⟩
  rw [hm, List.range_succ_eq_map, List.foldlM_cons]
  simp only [Nat.cast_zero, h]
  rfl

theorem store_ok_length {α : Type} (a a' : List α) (i : Int) (v : α)
    (h : store a i v = .ok a') : a'.length = a.length := by
  unfold store at h
  split_ifs at h
  cases h
  simp

namespace Life

theorem pickCell_ok_length (draws : Nat → Nat) (width height : Int) (st st' : List Bool × Nat)
    (h : pickCell draws width height st = .ok st') : st'.1.length = st.1.length := by
  unfold pickCell at h
  obtain ⟨r1, _, h⟩ := bind_eq_ok _ _ _ h
  obtain ⟨r2, _, h⟩ := bind_eq_ok _ _ _ h
  obtain ⟨a, ha, h⟩ := bind_eq_ok _ _ _ h
  cases h
  exact store_ok_length _ _ _ _ ha

theorem initRound_ok_shape (draws : Nat → Nat) (w w' : World) (m m' : Int) (pos pos' : Nat)
    (h : World.initRound draws w m pos = .ok (w', m', pos')) :
    w'.area.length = w.area.length ∧ w'.width = w.width ∧ w'.height = w.height := by
  unfold World.initRound at h
  obtain ⟨st, hst, h⟩ := bind_eq_ok _ _ _ h
  obtain ⟨m1, _, h⟩ := bind_eq_ok _ _ _ h
  cases h
  rw [forRange_toNat] at hst
  have := forRange_ok_inv (fun t : List Bool × Nat => t.1.length = w.area.length)
    (fun _ st => pickCell draws w.width w.height st)
    (fun _ t t' ht hb => (pickCell_ok_length draws _ _ t t' hb).trans ht) m.toNat (w.area, pos) st
    rfl hst
  exact ⟨this, rfl, rfl⟩

theorem init_finished_shape (draws : Nat → Nat) (fuel : Nat) :
    ∀ (w w' : World) (m : Int) (pos rounds pos' rounds' : Nat),
      World.init draws fuel w m pos rounds = .finished w' pos' rounds' →
      w'.area.length = w.area.length ∧ w'.width = w.width ∧ w'.height = w.height := by
  induction fuel with
  | zero =>
    intro w w' m pos rounds pos' rounds' h
    rw [World.init] at h
    split_ifs at h
    cases h
    exact ⟨rfl, rfl, rfl⟩
  | succ fuel ih =>
    intro w w' m pos rounds pos' rounds' h
    rw [World.init] at h
    split_ifs at h
    · cases hr : World.initRound draws w m pos with
      | error f => rw [hr] at h; cases h
      | ok r =>
        obtain ⟨w1, m1, p1⟩ := r
        rw [hr] at h
        obtain ⟨a1, a2, a3⟩ := initRound_ok_shape draws w w1 m m1 pos p1 hr
        obtain ⟨b1, b2, b3⟩ := ih w1 w' m1 p1 (rounds + 1) pos' rounds' h
        exact ⟨b1.trans a1, b2.trans a2, b3.trans a3⟩
    · cases h
      exact ⟨rfl, rfl, rfl⟩

theorem newWorld_finished_shape (draws : Nat → Nat) (fuel : Nat) (width height k : Int)
    (pos pos' rounds : Nat) (w : World)
    (h : NewWorld draws fuel width height k pos = .finished w pos' rounds) :
    (w.area.length : Int) = width * height ∧ w.width = width ∧ w.height = height := by
  unfold NewWorld make at h
  by_cases hN : width * height < 0
  · rw [if_pos hN] at h
    cases h
  · rw [if_neg hN] at h
    obtain ⟨h1, h2, h3⟩ := init_finished_shape draws fuel _ w k pos 0 pos' rounds h
    refine ⟨?_, h2, h3⟩
    rw [h1]
    simp only [List.length_replicate]
    omega

theorem update_cells (draws : Nat → Nat) (w : World) (pos : Nat)
    (hlen : (w.area.length : Int) = w.width * w.height) :
    ∃ next, World.Update draws w pos =
        .ok ({ w with area := next }, pos + w.height.toNat * w.width.toNat) ∧
      next.length = w.area.length ∧
      ∀ x y : Nat, (x : Int) < w.width → (y : Int) < w.height →
        y * w.width.toNat + x < w.area.length ∧
        next[y * w.width.toNat + x]? =
          some (flipOn42 (draws (pos + (y * w.width.toNat + x)))
            (lifeRule (w.area.getD (y * w.width.toNat + x) false)
              (mooreCount w.area w.width w.height x y))) := by
  obtain ⟨st, hrun, hpos, hl, hcells⟩ := update_loop draws w pos hlen
  refine ⟨st.1, ?_, hl, ?_⟩
  · unfold World.Update make
    simp only [if_neg (by omega : ¬ w.width * w.height < 0), ok_bind, hrun, hpos]
  · intro x y hx hy
    have hxW : x < w.width.toNat := by omega
    have hyH : y < w.height.toNat := by omega
    have hw : ((w.width.toNat : Nat) : Int) = w.width := Int.toNat_of_nonneg (by omega)
    have hh : ((w.height.toNat : Nat) : Int) = w.height := Int.toNat_of_nonneg (by omega)
    have hk : y * w.width.toNat + x < w.height.toNat * w.width.toNat := by nlinarith
    have hkN : y * w.width.toNat + x < w.area.length := by
      have h2 : ((w.height.toNat * w.width.toNat : Nat) : Int) = (w.area.length : Int) := by
        push_cast; rw [hw, hh, hlen]; ring
      omega
    refine ⟨hkN, ?_⟩
    rw [hcells _ hkN, if_pos hk]
    unfold nextCell
    rw [(cell_coords _ x y hxW).1, (cell_coords _ x y hxW).2, List.getD_eq_getElem?_getD]

/-- C12: grid-shape invariant of the automaton.  For dimensions whose product lies in
`[-2^63, 2^63)`, so that the product `NewWorld` forms is the one the code computes: whenever
`NewWorld(width, height, k)` returns a world, it has `len(area) = width*height` and the
given `width` and `height`, and for `width, height ≥ 1` it does return one.  For every
world with `len(area) = width*height` `Update` returns a world with the same `width` and
`height` and again `len(area) = width*height`; `World.Draw` returns nothing but the pixel
buffer and `Game.Draw` leaves the world of the game as it was. -/
theorem grid_shape_is_invariant (draws : Nat → Nat) (w : World) (pos : Nat)
    (hlen : (w.area.length : Int) = w.width * w.height) :
    (∀ (fuel : Nat) (width height k : Int) (p p' rounds : Nat) (v : World),
      -(2 ^ 63) ≤ width * height → width * height < 2 ^ 63 →
      NewWorld draws fuel width height k p = .finished v p' rounds →
      (v.area.length : Int) = width * height ∧ v.width = width ∧ v.height = height) ∧
    (∀ (fuel : Nat) (width height k : Int) (p : Nat), 1 ≤ width → 1 ≤ height →
      width * height < 2 ^ 63 → k.toNat ≤ fuel → ∃ v p' rounds,
        NewWorld draws fuel width height k p = .finished v p' rounds ∧
        (v.area.length : Int) = width * height ∧ v.width = width ∧ v.height = height) ∧
    (∃ v pos', World.Update draws w pos = .ok (v, pos') ∧
      (v.area.length : Int) = v.width * v.height ∧ v.width = w.width ∧ v.height = w.height) ∧
    (∀ (g g' : Game), Game.Draw g = .ok g' → g'.world = g.world) := by
  refine ⟨?_, ?_, ?_, ?_⟩
  · intro fuel width height k p p' rounds v _ _ h
    exact newWorld_finished_shape draws fuel width height k p p' rounds v h
  · intro fuel width height k p hw hh _ hfuel
    have hN : ¬ width * height < 0 := by nlinarith
    have hl : ((List.replicate (width * height).toNat false).length : Int) = width * height := by
      simp only [List.length_replicate]; omega
    obtain ⟨area, p', r, hrun, _⟩ := init_run draws ((0 : Int) + max k 0 +
        liveCount (List.replicate (width * height).toNat false)) fuel
      ⟨List.replicate (width * height).toNat false, width, height⟩ k p 0 hw hh hl hfuel
      (by simp only; omega) (by simp only; omega)
    have hnew : NewWorld draws fuel width height k p = .finished ⟨area, width, height⟩ p' r := by
      unfold NewWorld make
      rw [if_neg hN]
      exact hrun
    exact ⟨_, p', r, hnew, newWorld_finished_shape draws fuel width height k p p' r _ hnew⟩
  · obtain ⟨next, hrun, hl, _⟩ := update_cells draws w pos hlen
    exact ⟨_, _, hrun, by simp only; omega, rfl, rfl⟩
  · intro g g' h
    unfold Game.Draw at h
    simp only at h
    split at h
    · cases h; rfl
    · cases h

/-- Witness of C12 on the 2x2 all-alive grid, and for `NewWorld(2, 2, 1)`. -/
theorem grid_shape_is_invariant_witness :
    (∃ v pos', World.Update (fun _ => 0) ⟨[true, true, true, true], 2, 2⟩ 0 = .ok (v, pos') ∧
      (v.area.length : Int) = v.width * v.height ∧ v.width = 2 ∧ v.height = 2) ∧
    (2 : Int) * 2 < 2 ^ 63 ∧
    ∃ v p' rounds, NewWorld (fun _ => 0) 1 2 2 1 0 = .finished v p' rounds ∧
      (v.area.length : Int) = 2 * 2 ∧ v.width = 2 ∧ v.height = 2 :=
  have h := grid_shape_is_invariant (fun _ => 0) ⟨[true, true, true, true], 2, 2⟩ 0 (by decide)
  ⟨h.2.2.1, by norm_num,
    h.2.1 1 2 2 1 0 (by decide) (by decide) (by norm_num) (by decide)⟩

/-- C13: a tick cannot fail.  For every automaton world with `len(area) = width*height`
(in particular with `width, height ≥ 0`) and every random source, `World.Update` returns
normally, with no out-of-range access.  In `neighbourCount` an offset that fails the range
test makes no read at all (the step returns the count unchanged whatever the slice is), and
an offset that passes it has `0 ≤ x2 < width` and `0 ≤ y2 < height`, hence an index
`y2*width+x2` below `len(a)` whose read succeeds; every write `next[y*width+x]` of `Update`
is in range. -/
theorem update_never_indexes_out_of_range (draws : Nat → Nat) (w : World) (pos : Nat)
    (hlen : (w.area.length : Int) = w.width * w.height) :
    (∃ r, World.Update draws w pos = .ok r) ∧
    (∀ x y : Int, ∃ n, neighbourCount w.area w.width w.height x y = .ok n) ∧
    (∀ (a : List Bool) (x y i j c : Int),
      (i = 0 ∧ j = 0) ∨ x + i < 0 ∨ y + j < 0 ∨ w.width ≤ x + i ∨ w.height ≤ y + j →
      neighbourStep a w.width w.height x y j i c = .ok c) ∧
    (∀ x y i j : Int,
      ¬ (x + i < 0 ∨ y + j < 0 ∨ w.width ≤ x + i ∨ w.height ≤ y + j) →
      0 ≤ x + i ∧ x + i < w.width ∧ 0 ≤ y + j ∧ y + j < w.height ∧
      0 ≤ (y + j) * w.width + (x + i) ∧ (y + j) * w.width + (x + i) < (w.area.length : Int) ∧
      ∃ v, index w.area ((y + j) * w.width + (x + i)) = .ok v) ∧
    (∀ (x y : Nat) (next : List Bool) (v : Bool), (x : Int) < w.width → (y : Int) < w.height →
      next.length = w.area.length →
      0 ≤ (y : Int) * w.width + (x : Int) ∧ (y : Int) * w.width + (x : Int) < (next.length : Int) ∧
      ∃ next', store next ((y : Int) * w.width + (x : Int)) v = .ok next') := by
  refine ⟨?_, ?_, ?_, ?_, ?_⟩
  · obtain ⟨next, hrun, _⟩ := update_cells draws w pos hlen
    exact ⟨_, hrun⟩
  · intro x y
    exact ⟨_, neighbourCount_eq w.area w.width w.height x y hlen⟩
  · intro a x y i j c h
    unfold neighbourStep
    by_cases h0 : i = 0 ∧ j = 0
    · rw [if_pos h0]
    · rw [if_neg h0]
      simp only
      rw [if_pos (by tauto)]
  · intro x y i j h
    have hb := cell_index_bounds w.width w.height (x + i) (y + j) (by omega) (by omega)
      (by omega) (by omega)
    exact ⟨by omega, by omega, by omega, by omega, hb.1, by omega,
      _, index_eq_ok w.area _ hb.1 (by omega)⟩
  · intro x y next v hx hy hl
    have hb := cell_index_bounds w.width w.height x y (by omega) hx (by omega) hy
    exact ⟨hb.1, by omega, _, store_eq_ok next _ v hb.1 (by omega)⟩

/-- Witness of C13 on the 2x2 all-alive grid. -/
theorem update_never_indexes_out_of_range_witness :
    ∃ r, World.Update (fun _ => 0) ⟨[true, true, true, true], 2, 2⟩ 0 = .ok r :=
  (update_never_indexes_out_of_range (fun _ => 0) ⟨[true, true, true, true], 2, 2⟩ 0
    (by decide)).1

end Life

theorem pickCell_zero_dimension (draws : Nat → Nat) (width height : Int) (st : List Bool × Nat)
    (h : width = 0 ∨ height = 0) :
    Life.pickCell draws width height st = .error .intnArgument := by
  unfold Life.pickCell Intn
  by_cases hw : width ≤ 0
  · rw [if_pos hw]
    rfl
  · rw [if_neg hw]
    simp only [ok_bind]
    rw [if_pos (by omega)]
    rfl

theorem life_newWorld_zero_dimension (draws : Nat → Nat) (fuel : Nat) (width height k : Int)
    (pos : Nat) (h : width = 0 ∨ height = 0) :
    (k ≤ 0 → Life.NewWorld draws fuel width height k pos = .finished ⟨[], width, height⟩ pos 0) ∧
    (0 < k → Life.NewWorld draws (fuel + 1) width height k pos = .panicked .intnArgument) := by
  have hz : width * height = 0 := by
    rcases h with h | h <;> simp [h]
  constructor
  · intro hk
    unfold Life.NewWorld make
    rw [hz]
    simp only [lt_irrefl, if_false, Int.toNat_zero, List.replicate_zero]
    exact Life.init_done draws fuel _ k pos 0 (by omega)
  · intro hk
    unfold Life.NewWorld make
    rw [hz]
    simp only [lt_irrefl, if_false, Int.toNat_zero, List.replicate_zero]
    rw [Life.World.init, if_pos hk]
    have : Life.World.initRound draws ⟨[], width, height⟩ k pos = .error .intnArgument := by
      unfold Life.World.initRound
      rw [forRange_first_error k _ _ .intnArgument hk
        (pickCell_zero_dimension draws width height _ h)]
      rfl
    rw [this]

theorem frac_newWorld_zero_dimension (ovf : ℚ → Nat) (width height : Int)
    (h : width = 0 ∨ height = 0) :
    ∃ w, Fractal.NewWorld ovf width height = .ok w ∧ w.iterations = [] ∧
      w.width = width ∧ w.height = height := by
  have hz : width * height = 0 := by
    rcases h with h | h <;> simp [h]
  rw [Fractal.newWorld_eq ovf width height (by omega)]
  obtain ⟨next, hrun, hl, _⟩ := Fractal.update_eq ovf
    { iterations := List.replicate (width * height).toNat 0, width := width,
      height := height, realMin := -2, realMax := 1, imagMin := -1, imagMax := 1,
      palette := fun i => Fractal.paletteByte i.val (Fractal.maxIteration + 1) } (by simp only; omega)
  refine ⟨_, hrun, ?_, rfl, rfl⟩
  simp only at hl ⊢
  exact List.length_eq_zero.mp (by omega)

/-- C14 (counterexample): a zero dimension is not rejected.  The automaton
`NewWorld(0, 5, 0)` returns a world with an empty grid, and so does the fractal
`NewWorld(0, 5)`. -/
theorem newWorld_accepts_zero_dimension :
    Life.NewWorld (fun _ => 0) 0 0 5 0 0 = .finished ⟨[], 0, 5⟩ 0 0 ∧
    ∃ w, Fractal.NewWorld (fun _ => 0) 0 5 = .ok w ∧ w.iterations = [] ∧
      w.width = 0 ∧ w.height = 5 :=
  ⟨by decide, frac_newWorld_zero_dimension (fun _ => 0) 0 5 (Or.inl rfl)⟩

/-- C14 (amended): `NewWorld` has no dimension check and no invalid-dimension error.  With
`width = 0` or `height = 0` the fractal `NewWorld` returns a world with an empty grid; the
automaton `NewWorld` returns a world with an empty grid when `k ≤ 0`, and when `k > 0` its
first round panics in `rand.Intn`, whose argument is not positive. -/
theorem newWorld_has_no_dimension_check (draws : Nat → Nat) (ovf : ℚ → Nat) (fuel : Nat)
    (width height k : Int) (pos : Nat) (h : width = 0 ∨ height = 0) :
    (∃ w, Fractal.NewWorld ovf width height = .ok w ∧ w.iterations = [] ∧
      w.width = width ∧ w.height = height) ∧
    (k ≤ 0 → Life.NewWorld draws fuel width height k pos = .finished ⟨[], width, height⟩ pos 0) ∧
    (0 < k → Life.NewWorld draws (fuel + 1) width height k pos = .panicked .intnArgument) :=
  ⟨frac_newWorld_zero_dimension ovf width height h,
    life_newWorld_zero_dimension draws fuel width height k pos h⟩

/-- Witness of the amended C14 for `width = 0`, `height = 5`, `k = 3`. -/
theorem newWorld_has_no_dimension_check_witness :
    Life.NewWorld (fun _ => 0) (0 + 1) 0 5 3 0 = .panicked .intnArgument :=
  (newWorld_has_no_dimension_check (fun _ => 0) (fun _ => 0) 0 0 5 3 0 (Or.inl rfl)).2.2
    (by decide)

namespace Life

/-- C19: seeding never overshoots its budget.  For every `width, height ≥ 1` with
`width*height < 2^63` (the product `NewWorld` forms is then the one the code computes),
every `k ≥ 0` and every random source, `init(k)` as called by `NewWorld` ends with at most
`k` live cells (the parameter is a maximum) in a grid of `width*height` cells, so `k = 0`
yields the all-dead grid, and with at least one live cell whenever `k ≥ 1`.  Each round,
on any grid of `width*height` cells, replaces the budget `m` by `m` minus the number of all
live cells of the grid after the picks of the round, not only the cells the round added. -/
theorem init_never_overshoots (draws : Nat → Nat) (width height k : Int) (pos fuel : Nat)
    (hw : 1 ≤ width) (hh : 1 ≤ height) (hk : 0 ≤ k) (hfuel : k.toNat ≤ fuel) :
    (width * height < 2 ^ 63 → ∃ area pos' rounds,
      NewWorld draws fuel width height k pos = .finished ⟨area, width, height⟩ pos' rounds ∧
      (area.length : Int) = width * height ∧
      (liveCount area : Int) ≤ k ∧
      (k = 0 → area = List.replicate (width * height).toNat false ∧ ∀ c ∈ area, c = false) ∧
      (1 ≤ k → 1 ≤ liveCount area)) ∧
    (∀ (a : List Bool) (m : Int) (p : Nat), (a.length : Int) = width * height →
      ∃ area p', World.initRound draws ⟨a, width, height⟩ m p =
          .ok (⟨area, width, height⟩, m - liveCount area, p') ∧
        liveCount a ≤ liveCount area ∧ liveCount area ≤ liveCount a + m.toNat) := by
  have hN : ¬ width * height < 0 := by nlinarith
  have hlen : ((List.replicate (width * height).toNat false).length : Int) = width * height := by
    simp only [List.length_replicate]; omega
  have hdead : ∀ c ∈ List.replicate (width * height).toNat false, c = false :=
    fun c hc => (List.mem_replicate.mp hc).2
  have hzero : liveCount (List.replicate (width * height).toNat false) = 0 := by
    unfold liveCount
    exact List.count_eq_zero.mpr (fun h => by simpa using hdead true h)
  have hnew : NewWorld draws fuel width height k pos =
      World.init draws fuel ⟨List.replicate (width * height).toNat false, width, height⟩ k pos 0 := by
    unfold NewWorld make
    rw [if_neg hN]
  constructor
  · intro _
    obtain ⟨area, pos', r, hrun, hl, _, hle, _, hpos⟩ := init_run draws k fuel
      ⟨List.replicate (width * height).toNat false, width, height⟩ k pos 0 hw hh hlen hfuel
      (by simp only; omega) (by simp only; omega)
    refine ⟨area, pos', r, hnew.trans hrun, ?_, hle, fun hk0 => ?_, fun hk1 => hpos (by omega)⟩
    · simp only at hl
      rw [hl]
      exact hlen
    · rw [init_done _ _ _ _ _ _ (by omega)] at hrun
      injection hrun with hworld _ _
      injection hworld with harea _ _
      rw [← harea]
      exact ⟨rfl, hdead⟩
  · intro a m p ha
    obtain ⟨c1, c2, _⟩ := applyPicks_liveCount draws width height p m.toNat a hw hh ha
    exact ⟨_, _, initRound_eq draws ⟨a, width, height⟩ m p hw hh ha, c1, c2⟩

/-- Witness of C19 on the 2x1 grid with `k = 2` and picks that repeat. -/
theorem init_never_overshoots_witness :
    NewWorld (fun _ => 0) 2 2 1 2 0 = .finished ⟨[true, false], 2, 1⟩ 6 2 ∧
    (2 : Int) * 1 < 2 ^ 63 ∧
    ∃ area pos' rounds,
      NewWorld (fun _ => 0) 2 2 1 2 0 = .finished ⟨area, 2, 1⟩ pos' rounds ∧
      (area.length : Int) = 2 * 1 ∧ (liveCount area : Int) ≤ 2 :=
  ⟨by decide, by norm_num,
    ((init_never_overshoots (fun _ => 0) 2 1 2 0 2 (by decide) (by decide) (by decide)
      (by decide)).1 (by norm_num)).imp
      (fun _ h => h.imp (fun _ h => h.imp (fun _ h => ⟨h.1, h.2.1, h.2.2.1⟩)))⟩

end Life

theorem index_ok_getElem? {α : Type} (a : List α) (i : Int) (v : α) (h0 : 0 ≤ i)
    (h : index a i = .ok v) : a[i.toNat]? = some v := by
  unfold index at h
  rw [if_neg (by omega)] at h
  cases hg : a[i.toNat]? with
  | none => rw [hg] at h; cases h
  | some u => rw [hg] at h; cases h; rfl

namespace Life

theorem flipOn42_of_ne (raw : Nat) (r : Bool) (h : raw % 999999 ≠ 42) : flipOn42 raw r = r := by
  unfold flipOn42
  rw [if_neg h]

theorem liveAt_of_hasCells (a : List Bool) (width height : Int) (p : Int → Int → Bool)
    (h : HasCells a width height p) (x y : Int) :
    liveAt a width height x y =
      (decide (0 ≤ x ∧ x < width ∧ 0 ≤ y ∧ y < height) && p x y) := by
  unfold liveAt
  by_cases hr : 0 ≤ x ∧ x < width ∧ 0 ≤ y ∧ y < height
  · have hb := cell_index_bounds width height x y hr.1 hr.2.1 hr.2.2.1 hr.2.2.2
    have := index_ok_getElem? a _ _ hb.1 (h.2 x y hr.1 hr.2.1 hr.2.2.1 hr.2.2.2)
    rw [this]
    cases p x y <;> simp [hr]
  · simp [hr]

theorem mooreCount_of_hasCells (a : List Bool) (width height : Int) (p : Int → Int → Bool)
    (h : HasCells a width height p) (x y : Int) :
    mooreCount a width height x y =
      mooreOffsets.countP (fun o =>
        decide (0 ≤ x + o.1 ∧ x + o.1 < width ∧ 0 ≤ y + o.2 ∧ y + o.2 < height) &&
          p (x + o.1) (y + o.2)) := by
  unfold mooreCount
  congr 1
  funext o
  exact liveAt_of_hasCells a width height p h _ _

theorem hasCells_unique (a b : List Bool) (width height : Int) (p : Int → Int → Bool)
    (hw : 0 < width) (ha : HasCells a width height p) (hb : HasCells b width height p) :
    a = b := by
  apply List.ext_getElem?
  intro j
  have hla := ha.1
  have hlb := hb.1
  by_cases hj : j < a.length
  · have hX0 : 0 ≤ (j : Int) % width := Int.emod_nonneg _ (by omega)
    have hX : (j : Int) % width < width := Int.emod_lt_of_pos _ hw
    have hY0 : 0 ≤ (j : Int) / width := Int.ediv_nonneg (by omega) (by omega)
    have hsum : (j : Int) / width * width + (j : Int) % width = (j : Int) :=
      Int.ediv_add_emod' _ _
    have hY : (j : Int) / width < height := by
      by_contra hneg
      have : width * height ≤ (j : Int) / width * width := by nlinarith
      omega
    have e1 := index_ok_getElem? a _ _ (by omega) (ha.2 _ _ hX0 hX hY0 hY)
    have e2 := index_ok_getElem? b _ _ (by omega) (hb.2 _ _ hX0 hX hY0 hY)
    rw [hsum, Int.toNat_ofNat] at e1 e2
    rw [e1, e2]
  · rw [List.getElem?_eq_none (by omega), List.getElem?_eq_none (by omega)]

theorem update_of_hasCells (draws : Nat → Nat) (a : List Bool) (width height : Int)
    (p : Int → Int → Bool) (pos : Nat) (h : HasCells a width height p)
    (hno : ∀ i, i < a.length → draws (pos + i) % 999999 ≠ 42) :
    ∃ next, World.Update draws ⟨a, width, height⟩ pos =
        .ok (⟨next, width, height⟩, pos + height.toNat * width.toNat) ∧
      HasCells next width height (lifeStep width height p) := by
  obtain ⟨next, hrun, hl, hcells⟩ := update_cells draws ⟨a, width, height⟩ pos h.1
  refine ⟨next, hrun, ?_, ?_⟩
  · simp only at hl
    rw [hl]
    exact h.1
  · intro x y hx0 hx hy0 hy
    obtain ⟨X, rfl⟩ := Int.eq_ofNat_of_zero_le hx0
    obtain ⟨Y, rfl⟩ := Int.eq_ofNat_of_zero_le hy0
    obtain ⟨hk, hget⟩ := hcells X Y hx hy
    simp only at hk hget
    have hcast := cell_index_cast width X Y (by omega)
    rw [hcast]
    apply index_of_getElem? _ _ _ (by omega)
    rw [Int.toNat_ofNat, hget, flipOn42_of_ne _ _ (hno _ hk)]
    congr 1
    unfold lifeStep
    rw [mooreCount_of_hasCells a width height p h]
    congr 1
    have := index_ok_getElem? a _ _ (by omega) (h.2 X Y hx0 hx hy0 hy)
    rw [hcast, Int.toNat_ofNat] at this
    rw [List.getD_eq_getElem?_getD, this]
    rfl

theorem blinker_kernel_h (dx dy : Int) :
    lifeRule (decide (dy = 0 ∧ -1 ≤ dx ∧ dx ≤ 1))
      ((mooreOffsets.countP (fun o => decide (dy + o.2 = 0 ∧ -1 ≤ dx + o.1 ∧ dx + o.1 ≤ 1)) : Nat) : Int)
      = decide (dx = 0 ∧ -1 ≤ dy ∧ dy ≤ 1) := by
  by_cases hb : (-3 ≤ dx ∧ dx ≤ 3) ∧ (-2 ≤ dy ∧ dy ≤ 2)
  · obtain ⟨⟨h1, h2⟩, h3, h4⟩ := hb
    interval_cases dx <;> interval_cases dy <;> decide
  · have hcount : mooreOffsets.countP
        (fun o => decide (dy + o.2 = 0 ∧ -1 ≤ dx + o.1 ∧ dx + o.1 ≤ 1)) = 0 := by
      rw [List.countP_eq_zero]
      intro o ho
      simp only [mooreOffsets, List.mem_cons, List.mem_singleton, List.not_mem_nil, or_false] at ho
      rcases ho with rfl | rfl | rfl | rfl | rfl | rfl | rfl | rfl <;>
        simp only [decide_eq_true_eq] <;> omega
    rw [hcount]
    have h1 : decide (dy = 0 ∧ -1 ≤ dx ∧ dx ≤ 1) = false := decide_eq_false (by omega)
    have h2 : decide (dx = 0 ∧ -1 ≤ dy ∧ dy ≤ 1) = false := decide_eq_false (by omega)
    rw [h1, h2]
    decide

theorem blinker_kernel_v (dx dy : Int) :
    lifeRule (decide (dx = 0 ∧ -1 ≤ dy ∧ dy ≤ 1))
      ((mooreOffsets.countP (fun o => decide (dx + o.1 = 0 ∧ -1 ≤ dy + o.2 ∧ dy + o.2 ≤ 1)) : Nat) : Int)
      = decide (dy = 0 ∧ -1 ≤ dx ∧ dx ≤ 1) := by
  by_cases hb : (-2 ≤ dx ∧ dx ≤ 2) ∧ (-3 ≤ dy ∧ dy ≤ 3)
  · obtain ⟨⟨h1, h2⟩, h3, h4⟩ := hb
    interval_cases dx <;> interval_cases dy <;> decide
  · have hcount : mooreOffsets.countP
        (fun o => decide (dx + o.1 = 0 ∧ -1 ≤ dy + o.2 ∧ dy + o.2 ≤ 1)) = 0 := by
      rw [List.countP_eq_zero]
      intro o ho
      simp only [mooreOffsets, List.mem_cons, List.mem_singleton, List.not_mem_nil, or_false] at ho
      rcases ho with rfl | rfl | rfl | rfl | rfl | rfl | rfl | rfl <;>
        simp only [decide_eq_true_eq] <;> omega
    rw [hcount]
    have h1 : decide (dx = 0 ∧ -1 ≤ dy ∧ dy ≤ 1) = false := decide_eq_false (by omega)
    have h2 : decide (dy = 0 ∧ -1 ≤ dx ∧ dx ≤ 1) = false := decide_eq_false (by omega)
    rw [h1, h2]
    decide

theorem blinkerH_count (width height x y cx cy : Int) (hx : 1 ≤ x ∧ x ≤ width - 2)
    (hy : 1 ≤ y ∧ y ≤ height - 2) :
    mooreOffsets.countP (fun o =>
        decide (0 ≤ cx + o.1 ∧ cx + o.1 < width ∧ 0 ≤ cy + o.2 ∧ cy + o.2 < height) &&
          blinkerH x y (cx + o.1) (cy + o.2)) =
      mooreOffsets.countP (fun o =>
        decide ((cy - y) + o.2 = 0 ∧ -1 ≤ (cx - x) + o.1 ∧ (cx - x) + o.1 ≤ 1)) := by
  congr 1
  funext o
  unfold blinkerH
  rw [← Bool.decide_and, decide_eq_decide]
  constructor <;> intro h <;> omega

theorem blinkerV_count (width height x y cx cy : Int) (hx : 1 ≤ x ∧ x ≤ width - 2)
    (hy : 1 ≤ y ∧ y ≤ height - 2) :
    mooreOffsets.countP (fun o =>
        decide (0 ≤ cx + o.1 ∧ cx + o.1 < width ∧ 0 ≤ cy + o.2 ∧ cy + o.2 < height) &&
          blinkerV x y (cx + o.1) (cy + o.2)) =
      mooreOffsets.countP (fun o =>
        decide ((cx - x) + o.1 = 0 ∧ -1 ≤ (cy - y) + o.2 ∧ (cy - y) + o.2 ≤ 1)) := by
  congr 1
  funext o
  unfold blinkerV
  rw [← Bool.decide_and, decide_eq_decide]
  constructor <;> intro h <;> omega

theorem lifeStep_blinkerH (width height x y : Int) (hx : 1 ≤ x ∧ x ≤ width - 2)
    (hy : 1 ≤ y ∧ y ≤ height - 2) :
    lifeStep width height (blinkerH x y) = blinkerV x y := by
  funext cx cy
  unfold lifeStep
  rw [blinkerH_count width height x y cx cy hx hy]
  have key := blinker_kernel_h (cx - x) (cy - y)
  have e1 : blinkerH x y cx cy = decide (cy - y = 0 ∧ -1 ≤ cx - x ∧ cx - x ≤ 1) := by
    unfold blinkerH
    rw [decide_eq_decide]
    constructor <;> intro h <;> omega
  have e2 : blinkerV x y cx cy = decide (cx - x = 0 ∧ -1 ≤ cy - y ∧ cy - y ≤ 1) := by
    unfold blinkerV
    rw [decide_eq_decide]
    constructor <;> intro h <;> omega
  rw [e1, e2]
  exact key

theorem lifeStep_blinkerV (width height x y : Int) (hx : 1 ≤ x ∧ x ≤ width - 2)
    (hy : 1 ≤ y ∧ y ≤ height - 2) :
    lifeStep width height (blinkerV x y) = blinkerH x y := by
  funext cx cy
  unfold lifeStep
  rw [blinkerV_count width height x y cx cy hx hy]
  have key := blinker_kernel_v (cx - x) (cy - y)
  have e1 : blinkerH x y cx cy = decide (cy - y = 0 ∧ -1 ≤ cx - x ∧ cx - x ≤ 1) := by
    unfold blinkerH
    rw [decide_eq_decide]
    constructor <;> intro h <;> omega
  have e2 : blinkerV x y cx cy = decide (cx - x = 0 ∧ -1 ≤ cy - y ∧ cy - y ≤ 1) := by
    unfold blinkerV
    rw [decide_eq_decide]
    constructor <;> intro h <;> omega
  rw [e1, e2]
  exact key

theorem blinkerH_born_count (a : List Bool) (width height x y : Int)
    (hx : 1 ≤ x ∧ x ≤ width - 2) (hy : 1 ≤ y ∧ y ≤ height - 2)
    (ha : HasCells a width height (blinkerH x y)) :
    neighbourCount a width height x (y - 1) = .ok 3 ∧
    neighbourCount a width height x (y + 1) = .ok 3 := by
  have h1 : mooreCount a width height x (y - 1) = 3 := by
    rw [mooreCount_of_hasCells a width height _ ha, blinkerH_count width height x y _ _ hx hy,
      (by omega : x - x = (0 : Int)), (by omega : y - 1 - y = (-1 : Int))]
    decide
  have h2 : mooreCount a width height x (y + 1) = 3 := by
    rw [mooreCount_of_hasCells a width height _ ha, blinkerH_count width height x y _ _ hx hy,
      (by omega : x - x = (0 : Int)), (by omega : y + 1 - y = (1 : Int))]
    decide
  constructor
  · rw [neighbourCount_eq a width height _ _ ha.1, h1]; rfl
  · rw [neighbourCount_eq a width height _ _ ha.1, h2]; rfl

/-- C16: the blinker has period 2.  For every grid with `width, height ≥ 3` whose only live
cells are `(x-1, y)`, `(x, y)`, `(x+1, y)` with `1 ≤ x ≤ width-2` and `1 ≤ y ≤ height-2`, one
`Update` in which no draw is 42 yields the grid whose only live cells are `(x, y-1)`,
`(x, y)`, `(x, y+1)` (the dead cells `(x, y-1)` and `(x, y+1)` have exactly 3 live
neighbours), and a second such `Update` restores the original grid. -/
theorem blinker_has_period_two (draws : Nat → Nat) (a : List Bool) (width height x y : Int)
    (pos : Nat) (hw : 3 ≤ width) (hh : 3 ≤ height) (hx : 1 ≤ x ∧ x ≤ width - 2)
    (hy : 1 ≤ y ∧ y ≤ height - 2) (ha : HasCells a width height (blinkerH x y))
    (hno : ∀ i, i < 2 * a.length → draws (pos + i) % 999999 ≠ 42) :
    ∃ a1, World.Update draws ⟨a, width, height⟩ pos = .ok (⟨a1, width, height⟩, pos + a.length) ∧
      HasCells a1 width height (blinkerV x y) ∧
      neighbourCount a width height x (y - 1) = .ok 3 ∧
      neighbourCount a width height x (y + 1) = .ok 3 ∧
      World.Update draws ⟨a1, width, height⟩ (pos + a.length) =
        .ok (⟨a, width, height⟩, pos + 2 * a.length) := by
  have hlen : height.toNat * width.toNat = a.length := by
    have h1 := ha.1
    have h2 : ((height.toNat * width.toNat : Nat) : Int) = width * height := by
      push_cast
      rw [Int.toNat_of_nonneg (by omega), Int.toNat_of_nonneg (by omega)]
      ring
    omega
  obtain ⟨a1, hrun1, hc1⟩ := update_of_hasCells draws a width height _ pos ha
    (fun i hi => hno i (by omega))
  rw [lifeStep_blinkerH width height x y hx hy] at hc1
  have hl1 : a1.length = a.length := by have := hc1.1; have := ha.1; omega
  obtain ⟨a2, hrun2, hc2⟩ := update_of_hasCells draws a1 width height _ (pos + a.length) hc1
    (fun i hi => by
      have := hno (a.length + i) (by omega)
      rwa [← Nat.add_assoc] at this)
  rw [lifeStep_blinkerV width height x y hx hy] at hc2
  have heq : a2 = a := hasCells_unique a2 a width height _ (by omega) hc2 ha
  obtain ⟨hb1, hb2⟩ := blinkerH_born_count a width height x y hx hy ha
  refine ⟨a1, ?_, hc1, hb1, hb2, ?_⟩
  · rw [hrun1, hlen]
  · rw [hrun2, heq, hlen]
    congr 2
    omega

/-- Witness of C16: the 3x3 grid with the middle row alive. -/
theorem blinker_has_period_two_witness :
    World.Update (fun _ => 0) ⟨[false, false, false, true, true, true, false, false, false], 3, 3⟩ 0
      = .ok (⟨[false, true, false, false, true, false, false, true, false], 3, 3⟩, 9) ∧
    World.Update (fun _ => 0) ⟨[false, true, false, false, true, false, false, true, false], 3, 3⟩ 9
      = .ok (⟨[false, false, false, true, true, true, false, false, false], 3, 3⟩, 18) ∧
    ∃ a1, World.Update (fun _ => 0)
        ⟨[false, false, false, true, true, true, false, false, false], 3, 3⟩ 0 =
          .ok (⟨a1, 3, 3⟩,
            0 + [false, false, false, true, true, true, false, false, false].length) ∧
      HasCells a1 3 3 (blinkerV 1 1) :=
  ⟨by decide, by decide,
    (blinker_has_period_two (fun _ => 0)
      [false, false, false, true, true, true, false, false, false] 3 3 1 1 0
      (by decide) (by decide) (by decide) (by decide)
      ⟨by decide, fun cx cy h1 h2 h3 h4 => by
        interval_cases cx <;> interval_cases cy <;> decide⟩
      (fun _ _ => by simp)).imp (fun _ h => ⟨h.1, h.2.1⟩)⟩

/-- C15: block still life.  On the 2x2 grid with all four cells alive every cell has
`neighbourCount` exactly 3, and `Update` with no mutation (none of the four draws is 42)
returns the same all-alive grid. -/
theorem block_is_still_life (draws : Nat → Nat) (pos : Nat)
    (hno : ∀ i, i < 4 → draws (pos + i) % 999999 ≠ 42) :
    (∀ x ∈ List.range 2, ∀ y ∈ List.range 2,
      neighbourCount [true, true, true, true] 2 2 (x : Int) (y : Int) = .ok 3) ∧
    World.Update draws ⟨[true, true, true, true], 2, 2⟩ pos =
      .ok (⟨[true, true, true, true], 2, 2⟩, pos + 4) := by
  refine ⟨by decide, ?_⟩
  have hblock : HasCells [true, true, true, true] 2 2 (fun _ _ => true) :=
    ⟨by decide, fun cx cy h1 h2 h3 h4 => by interval_cases cx <;> interval_cases cy <;> decide⟩
  obtain ⟨next, hrun, hnext⟩ := update_of_hasCells draws [true, true, true, true] 2 2 _ pos
    hblock hno
  have hstill : HasCells [true, true, true, true] 2 2 (lifeStep 2 2 (fun _ _ => true)) :=
    ⟨by decide, fun cx cy h1 h2 h3 h4 => by interval_cases cx <;> interval_cases cy <;> decide⟩
  rw [hrun, hasCells_unique next _ 2 2 _ (by decide) hnext hstill]
  rfl

/-- Witness of C15 with a random source that never draws 42. -/
theorem block_is_still_life_witness :
    World.Update (fun _ => 0) ⟨[true, true, true, true], 2, 2⟩ 0 =
      .ok (⟨[true, true, true, true], 2, 2⟩, 0 + 4) :=
  (block_is_still_life (fun _ => 0) 0 (fun _ _ => by simp)).2

/-- C17 (counterexample): the alpha byte of a live cell wraps.  Starting from alpha 64 the
first `Draw` gives 129 and the second gives 3, which is smaller and not 255; starting from
alpha 128 the first `Draw` already gives 1. -/
theorem live_alpha_can_decrease :
    World.Draw ⟨[true], 1, 1⟩ [0, 0, 0, 64] = .ok [255, 255, 255, 129] ∧
    World.Draw ⟨[true], 1, 1⟩ [255, 255, 255, 129] = .ok [255, 255, 255, 3] ∧
    ¬ (129 < 3) ∧ (129 : Nat) ≠ 255 ∧
    World.Draw ⟨[true], 1, 1⟩ [0, 0, 0, 128] = .ok [255, 255, 255, 1] ∧ ¬ (128 < 1) := by
  decide

/-- C17 (amended): for a cell that is alive at two consecutive `Draw` calls on the same
buffer and a starting alpha byte `a`, the alpha is `(2*a+1) mod 256` after the first call
and `(2*a1+1) mod 256` after the second, `a1` being the first result.  A call raises the
alpha strictly when it starts below 128 and keeps 255; so from every value `2^j - 1`, the
values the automaton's own buffer holds, each call raises it strictly until it is 255, and the
alpha after the second call is strictly greater than after the first unless that is 255.
From `128 ≤ a < 255` the byte arithmetic wraps and the alpha falls. -/
theorem live_alpha_grows_without_wrap (w1 w2 : World) (pix : List Nat) (i : Nat)
    (hlen : w2.area.length = w1.area.length) (hpix : 4 * w1.area.length ≤ pix.length)
    (h1 : w1.area[i]? = some true) (h2 : w2.area[i]? = some true) :
    ∃ a p1 p2, pix[4 * i + 3]? = some a ∧
      World.Draw w1 pix = .ok p1 ∧ World.Draw w2 p1 = .ok p2 ∧
      p1[4 * i + 3]? = some ((2 * a + 1) % 256) ∧
      p2[4 * i + 3]? = some ((2 * ((2 * a + 1) % 256) + 1) % 256) ∧
      (a < 128 → a < (2 * a + 1) % 256) ∧
      ((2 * a + 1) % 256 < 128 → (2 * a + 1) % 256 < (2 * ((2 * a + 1) % 256) + 1) % 256) ∧
      (a = 255 → (2 * a + 1) % 256 = 255) ∧
      (128 ≤ a → a < 255 → (2 * a + 1) % 256 < a) ∧
      (∀ j, j ≤ 8 → a = 2 ^ j - 1 →
        (a ≠ 255 → a < (2 * a + 1) % 256) ∧
        ((2 * a + 1) % 256 ≠ 255 →
          (2 * a + 1) % 256 < (2 * ((2 * a + 1) % 256) + 1) % 256)) := by
  have hi : i < w1.area.length := by
    by_contra hneg
    rw [List.getElem?_eq_none (by omega)] at h1
    cases h1
  have hv1 : w1.area.getD i false = true := by simp [List.getD_eq_getElem?_getD, h1]
  have hv2 : w2.area.getD i false = true := by simp [List.getD_eq_getElem?_getD, h2]
  obtain ⟨p1, hrun1, hl1, hp1⟩ := draw_loop w1 pix hpix
  obtain ⟨p2, hrun2, hl2, hp2⟩ := draw_loop w2 p1 (by omega)
  have e1 := (draw_pixel w1 pix p1 i hi hpix hl1 hp1).2.2.2
  have e2 := (draw_pixel w2 p1 p2 i (by omega) (by omega) hl2 hp2).2.2.2
  have hget : p1.getD (4 * i + 3) 0 = (2 * pix.getD (4 * i + 3) 0 + 1) % 256 := by
    rw [getElem?_eq_some_getD p1 _ (by omega), Option.some.injEq] at e1
    rw [e1, hv1]
    rfl
  rw [hv1] at e1
  rw [hv2, hget] at e2
  refine ⟨pix.getD (4 * i + 3) 0, p1, p2, getElem?_eq_some_getD pix _ (by omega), hrun1, hrun2,
    e1, e2, ?_, ?_, ?_, ?_, ?_⟩
  · intro h; omega
  · intro h; omega
  · intro h; omega
  · intro h h'; omega
  · intro j hj ha
    generalize pix.getD (4 * i + 3) 0 = a at ha
    subst ha
    interval_cases j <;> simp

/-- Witness of the amended C17: a live cell drawn twice from alpha 1. -/
theorem live_alpha_grows_without_wrap_witness :
    World.Draw ⟨[true], 1, 1⟩ [0, 0, 0, 1] = .ok [255, 255, 255, 3] ∧
    ∃ a p1 p2, ([0, 0, 0, 1] : List Nat)[4 * 0 + 3]? = some a ∧
      World.Draw ⟨[true], 1, 1⟩ [0, 0, 0, 1] = .ok p1 ∧ World.Draw ⟨[true], 1, 1⟩ p1 = .ok p2 :=
  ⟨by decide,
    (live_alpha_grows_without_wrap ⟨[true], 1, 1⟩ ⟨[true], 1, 1⟩ [0, 0, 0, 1] 0 rfl
      (by decide) (by decide) (by decide)).imp
      (fun _ h => h.imp (fun _ h => h.imp (fun _ h => ⟨h.1, h.2.1, h.2.2.1⟩)))⟩

end Life

namespace Fractal

theorem orbit_zero (k : Nat) : orbit ⟨0, 0⟩ k = ⟨0, 0⟩ := by
  induction k with
  | zero => rfl
  | succ k ih =>
    simp only [orbit, ih, Complex128.mul, Complex128.add]
    norm_num

/-- C18: reference points of the fractal evaluator.  `mandelbrot(0+0i)` returns
`maxIteration = 30`, because `z` stays 0 and never escapes; `mandelbrot(2+2i)` returns 1 (so
0 or 1): `z_1 = 2+2i` has `|z_1|^2 = 8` and escapes at once. -/
theorem mandelbrot_reference_points (ovf : ℚ → Nat) :
    mandelbrot ovf ⟨0, 0⟩ = maxIteration ∧ maxIteration = 30 ∧
    (∀ k, orbit ⟨0, 0⟩ k = ⟨0, 0⟩) ∧
    mandelbrot ovf ⟨2, 2⟩ = 1 ∧
    (mandelbrot ovf ⟨2, 2⟩ = 0 ∨ mandelbrot ovf ⟨2, 2⟩ = 1) ∧
    orbit ⟨2, 2⟩ 1 = ⟨2, 2⟩ ∧ complexModulusSquared ovf ⟨2, 2⟩ = 8 := by
  have h0 : mandelbrot ovf ⟨0, 0⟩ = maxIteration := by
    rw [mandelbrot_eq, truncated_eq_floor _ _ (by simp only [normSq]; norm_num)]
    unfold floorEscapeTime
    rw [Nat.find_eq_iff]
    refine ⟨Or.inr rfl, fun k hk => ?_⟩
    rw [orbit_zero]
    simp only [normSq]
    rintro (h | h)
    · norm_num at h
    · omega
  have h2 : mandelbrot ovf ⟨2, 2⟩ = 1 := by
    rw [mandelbrot_eq, truncated_eq_floor _ _ (by simp only [normSq]; norm_num)]
    unfold floorEscapeTime
    rw [Nat.find_eq_iff]
    constructor
    · left
      simp only [orbit, normSq, Complex128.mul, Complex128.add]
      norm_num
    · intro k hk
      interval_cases k
      simp only [orbit, normSq, maxIteration]
      norm_num
  refine ⟨h0, rfl, orbit_zero, h2, Or.inr h2, ?_, ?_⟩
  · simp only [orbit, Complex128.mul, Complex128.add]
    norm_num
  · unfold complexModulusSquared toUint
    rw [if_pos (by norm_num)]
    have : ((2 : ℚ) * 2 + 2 * 2) = ((8 : Int) : ℚ) := by norm_num
    rw [this]
    show (⌊((8 : Int) : ℚ)⌋).toNat = 8
    rw [Int.floor_intCast]
    rfl

end Fractal
namespace Life

theorem alphaStep_allOnes (v : Bool) (a : Nat) (ha : a ∈ allOnes) : alphaStep v a ∈ allOnes := by
  simp only [allOnes, List.mem_cons, List.mem_singleton, List.not_mem_nil, or_false] at ha
  rcases ha with rfl | rfl | rfl | rfl | rfl | rfl | rfl | rfl | rfl <;> cases v <;> decide

theorem alphaStep_true_iterate (a : Nat) : (alphaStep true)^[8] a = 255 := by
  simp only [Function.iterate_succ, Function.iterate_zero, Function.comp_apply, alphaStep,
    if_true, id_eq]
  omega

theorem alphaStep_false_iterate (a : Nat) (ha : a < 256) : (alphaStep false)^[8] a = 0 := by
  simp only [Function.iterate_succ, Function.iterate_zero, Function.comp_apply, alphaStep,
    Bool.false_eq_true, if_false, id_eq]
  omega

theorem drawFrames_alpha (v : Bool) (i : Nat) :
    ∀ (ws : List World) (pix : List Nat),
      (∀ w ∈ ws, 4 * w.area.length ≤ pix.length ∧ w.area[i]? = some v) →
      ∃ p, drawFrames ws pix = .ok p ∧ p.length = pix.length ∧
        p.getD (4 * i + 3) 0 = (alphaStep v)^[ws.length] (pix.getD (4 * i + 3) 0) := by
  intro ws
  induction ws with
  | nil => intro pix _; exact ⟨pix, rfl, rfl, rfl⟩
  | cons w ws ih =>
    intro pix h
    obtain ⟨hpix, hv⟩ := h w (List.mem_cons_self _ _)
    have hi : i < w.area.length := by
      by_contra hneg
      rw [List.getElem?_eq_none (by omega)] at hv
      cases hv
    obtain ⟨p1, hrun, hl, hp⟩ := draw_loop w pix hpix
    obtain ⟨p, hrest, hl', hp'⟩ := ih p1 (fun u hu => by
      obtain ⟨h1, h2⟩ := h u (List.mem_cons_of_mem _ hu)
      exact ⟨by omega, h2⟩)
    refine ⟨p, ?_, by omega, ?_⟩
    · unfold drawFrames at hrest ⊢
      rw [List.foldlM_cons, hrun]
      exact hrest
    · rw [hp', hp (4 * i + 3), if_pos (by omega)]
      unfold drawnByte
      rw [if_pos (by omega), (by omega : (4 * i + 3) / 4 = i)]
      have : w.area.getD i false = v := by simp [List.getD_eq_getElem?_getD, hv]
      rw [this, List.length_cons, Function.iterate_succ_apply]

/-- The invariant of the game: the world has the shape of the screen and the buffer, once
allocated, holds four bytes for each cell with an alpha byte of the form `2^j - 1`. -/
theorem game_call_inv (draws : Nat → Nat) (c : Call) (g : Game) (pos : Nat)
    (hshape : (g.world.area.length : Int) = g.world.width * g.world.height)
    (hscreen : (g.world.area.length : Int) = screenWidth * screenHeight)
    (hpix : ∀ p, g.pixels = some p → p.length = 4 * g.world.area.length ∧
      ∀ i, i < g.world.area.length → p.getD (4 * i + 3) 0 ∈ allOnes) :
    ∃ g' pos', Game.call draws c (g, pos) = .ok (g', pos') ∧
      (g'.world.area.length : Int) = g'.world.width * g'.world.height ∧
      (g'.world.area.length : Int) = screenWidth * screenHeight ∧
      (∀ p, g'.pixels = some p → p.length = 4 * g'.world.area.length ∧
        ∀ i, i < g'.world.area.length → p.getD (4 * i + 3) 0 ∈ allOnes) := by
  cases c with
  | update =>
    obtain ⟨next, hrun, hl, _⟩ := update_cells draws g.world pos hshape
    refine ⟨{ g with world := { g.world with area := next } },
      pos + g.world.height.toNat * g.world.width.toNat, ?_, ?_, ?_, ?_⟩
    · simp only [Game.call, Game.Update, hrun, ok_bind]
    · simp only; omega
    · simp only; omega
    · intro p hp
      simp only at hp ⊢
      rw [hl]
      exact hpix p hp
  | draw =>
    have hmain : ∀ q : List Nat, q.length = 4 * g.world.area.length →
        (∀ i, i < g.world.area.length → q.getD (4 * i + 3) 0 ∈ allOnes) →
        ∃ p, g.world.Draw q = .ok p ∧ p.length = 4 * g.world.area.length ∧
          ∀ i, i < g.world.area.length → p.getD (4 * i + 3) 0 ∈ allOnes := by
      intro q hq hall
      obtain ⟨p, hrun, hl, hp⟩ := draw_loop g.world q (by omega)
      refine ⟨p, hrun, by omega, fun i hi => ?_⟩
      rw [hp (4 * i + 3), if_pos (by omega)]
      unfold drawnByte
      rw [if_pos (by omega), (by omega : (4 * i + 3) / 4 = i)]
      exact alphaStep_allOnes _ _ (hall i hi)
    have hrun : ∃ p, Game.Draw g = .ok { g with pixels := some p } ∧
        p.length = 4 * g.world.area.length ∧
        ∀ i, i < g.world.area.length → p.getD (4 * i + 3) 0 ∈ allOnes := by
      cases hg : g.pixels with
      | none =>
        obtain ⟨p, hrun, h1, h2⟩ := hmain (List.replicate (screenWidth * screenHeight * 4).toNat 0)
          (by simp only [List.length_replicate]; omega)
          (fun i hi => by
            rw [List.getD_eq_getElem?_getD, List.getElem?_replicate]
            split_ifs <;> simp [allOnes])
        exact ⟨p, by simp only [Game.Draw, hg, hrun], h1, h2⟩
      | some q =>
        obtain ⟨hq1, hq2⟩ := hpix q hg
        obtain ⟨p, hrun, h1, h2⟩ := hmain q hq1 hq2
        exact ⟨p, by simp only [Game.Draw, hg, hrun], h1, h2⟩
    obtain ⟨p, hdraw, h1, h2⟩ := hrun
    refine ⟨{ g with pixels := some p }, pos, ?_, hshape, hscreen, ?_⟩
    · simp only [Game.call, hdraw]
    · intro p' hp'
      simp only [Option.some.injEq] at hp'
      subst hp'
      exact ⟨h1, h2⟩

theorem game_run_inv (draws : Nat → Nat) (calls : List Call) :
    ∀ (g : Game) (pos : Nat),
      (g.world.area.length : Int) = g.world.width * g.world.height →
      (g.world.area.length : Int) = screenWidth * screenHeight →
      (∀ p, g.pixels = some p → p.length = 4 * g.world.area.length ∧
        ∀ i, i < g.world.area.length → p.getD (4 * i + 3) 0 ∈ allOnes) →
      ∃ g' pos', Game.run draws calls (g, pos) = .ok (g', pos') ∧
        (g'.world.area.length : Int) = screenWidth * screenHeight ∧
        (∀ p, g'.pixels = some p → p.length = 4 * g'.world.area.length ∧
          ∀ i, i < g'.world.area.length → p.getD (4 * i + 3) 0 ∈ allOnes) := by
  induction calls with
  | nil => intro g pos _ h2 h3; exact ⟨g, pos, rfl, h2, h3⟩
  | cons c calls ih =>
    intro g pos h1 h2 h3
    obtain ⟨g1, pos1, hcall, k1, k2, k3⟩ := game_call_inv draws c g pos h1 h2 h3
    obtain ⟨g', pos', hrun, r2, r3⟩ := ih g1 pos1 k1 k2 k3
    refine ⟨g', pos', ?_, r2, r3⟩
    unfold Game.run at hrun ⊢
    rw [List.foldlM_cons, hcall]
    exact hrun

/-- C20: alpha bytes of the automaton's own buffer are always of the form `2^j - 1`.  For a
game whose world has the shape of the screen and whose buffer is not yet allocated, every
finite sequence of `Update` and `Draw` calls returns normally (the first `Draw` allocates
the all-zero buffer) and leaves every alpha byte `pix[4i+3]` among 0, 1, 3, 7, 15, 31, 63,
127, 255.  On these values the live step `(a<<1)+1` stays among them, never decreases the
alpha and fixes 255, and the dead step `a>>1` stays among them, never increases it and fixes
0.  A cell alive at 8 consecutive frames has alpha 255, and a cell dead at 8 consecutive
frames of a buffer of bytes has alpha 0. -/
theorem alpha_bytes_stay_all_ones (draws : Nat → Nat) (w0 : World) (calls : List Call)
    (pos : Nat) (hw : w0.width = screenWidth) (hh : w0.height = screenHeight)
    (hlen : (w0.area.length : Int) = screenWidth * screenHeight) :
    (∃ g pos', Game.run draws calls (⟨w0, none⟩, pos) = .ok (g, pos') ∧
      ∀ p, g.pixels = some p → p.length = 4 * g.world.area.length ∧
        ∀ i, i < g.world.area.length →
          ∃ a, p[4 * i + 3]? = some a ∧ a ∈ [0, 1, 3, 7, 15, 31, 63, 127, 255]) ∧
    (∃ p, Game.Draw ⟨w0, none⟩ = .ok ⟨w0, some p⟩ ∧
      World.Draw w0 (List.replicate (4 * w0.area.length) 0) = .ok p) ∧
    (∀ a ∈ [0, 1, 3, 7, 15, 31, 63, 127, 255],
      ((a <<< 1) % 256 + 1) % 256 ∈ [0, 1, 3, 7, 15, 31, 63, 127, 255] ∧
      a >>> 1 ∈ [0, 1, 3, 7, 15, 31, 63, 127, 255] ∧
      a ≤ ((a <<< 1) % 256 + 1) % 256 ∧ a >>> 1 ≤ a) ∧
    ((255 <<< 1) % 256 + 1) % 256 = 255 ∧ 0 >>> 1 = 0 ∧
    (∀ (ws : List World) (pix : List Nat) (i : Nat), ws.length = 8 →
      (∀ w ∈ ws, 4 * w.area.length ≤ pix.length ∧ w.area[i]? = some true) →
      ∃ p, drawFrames ws pix = .ok p ∧ p[4 * i + 3]? = some 255) ∧
    (∀ (ws : List World) (pix : List Nat) (i : Nat), ws.length = 8 →
      (∀ w ∈ ws, 4 * w.area.length ≤ pix.length ∧ w.area[i]? = some false) →
      (∀ b ∈ pix, b < 256) →
      ∃ p, drawFrames ws pix = .ok p ∧ p[4 * i + 3]? = some 0) := by
  have hshape : (w0.area.length : Int) = w0.width * w0.height := by rw [hw, hh]; exact hlen
  refine ⟨?_, ?_, ?_, by decide, by decide, ?_, ?_⟩
  · obtain ⟨g, pos', hrun, _, hpix⟩ := game_run_inv draws calls ⟨w0, none⟩ pos hshape hlen
      (fun p hp => by cases hp)
    refine ⟨g, pos', hrun, fun p hp => ⟨(hpix p hp).1, fun i hi => ?_⟩⟩
    obtain ⟨h1, h2⟩ := hpix p hp
    exact ⟨_, getElem?_eq_some_getD p _ (by omega), h2 i hi⟩
  · obtain ⟨p, hrun, _⟩ := draw_loop w0 (List.replicate (4 * w0.area.length) 0)
      (by simp only [List.length_replicate]; omega)
    have hsize : (screenWidth * screenHeight * 4).toNat = 4 * w0.area.length := by omega
    refine ⟨p, ?_, hrun⟩
    simp only [Game.Draw, hsize, hrun]
  · intro a ha
    simp only [List.mem_cons, List.mem_singleton, List.not_mem_nil, or_false] at ha
    rcases ha with rfl | rfl | rfl | rfl | rfl | rfl | rfl | rfl | rfl <;> decide
  · intro ws pix i h8 hall
    obtain ⟨p, hrun, hl, hp⟩ := drawFrames_alpha true i ws pix hall
    obtain ⟨w, hwmem⟩ := List.exists_mem_of_length_pos (by omega : 0 < ws.length)
    obtain ⟨hpix, hv⟩ := hall w hwmem
    have hi : i < w.area.length := by
      by_contra hneg
      rw [List.getElem?_eq_none (by omega)] at hv
      cases hv
    refine ⟨p, hrun, ?_⟩
    rw [getElem?_eq_some_getD p _ (by omega), hp, h8, alphaStep_true_iterate]
  · intro ws pix i h8 hall hbytes
    obtain ⟨p, hrun, hl, hp⟩ := drawFrames_alpha false i ws pix hall
    obtain ⟨w, hwmem⟩ := List.exists_mem_of_length_pos (by omega : 0 < ws.length)
    obtain ⟨hpix, hv⟩ := hall w hwmem
    have hi : i < w.area.length := by
      by_contra hneg
      rw [List.getElem?_eq_none (by omega)] at hv
      cases hv
    have hbyte : pix.getD (4 * i + 3) 0 < 256 := by
      rw [List.getD_eq_getElem _ _ (by omega)]
      exact hbytes _ (List.getElem_mem _)
    refine ⟨p, hrun, ?_⟩
    rw [getElem?_eq_some_getD p _ (by omega), hp, h8, alphaStep_false_iterate _ hbyte]

/-- Witness of C20: the all-dead world of the screen, drawn, updated and drawn again. -/
theorem alpha_bytes_stay_all_ones_witness :
    ∃ g pos', Game.run (fun _ => 0) [Call.draw, Call.update, Call.draw]
        (⟨⟨List.replicate 467500 false, 850, 550⟩, none⟩, 0) = .ok (g, pos') ∧
      ∀ p, g.pixels = some p → p.length = 4 * g.world.area.length ∧
        ∀ i, i < g.world.area.length →
          ∃ a, p[4 * i + 3]? = some a ∧ a ∈ [0, 1, 3, 7, 15, 31, 63, 127, 255] :=
  (alpha_bytes_stay_all_ones (fun _ => 0) ⟨List.replicate 467500 false, 850, 550⟩
    [Call.draw, Call.update, Call.draw] 0 rfl rfl
    (by simp only [List.length_replicate, screenWidth, screenHeight]; norm_num)).1

end Life
end Gofrac
